import Mathlib

/-!
Verification development for the entity-resolution (record-linkage) core of the
epl-data repository.  The Python sources embedded here are:

* `backend/data-pipeline/link_understat_fbref.py` — `_norm`, `_norm_team`,
  `build_player_xref` (exact / tie-break / fuzzy-same-team decision policy);
* `fpl/data_pipeline/init_fpl_elements.py` (and its near-duplicate
  `fpl/training/preds_to_postgres.py`) — `norm`, `tokens`, `first_last`,
  `prune_connectors`, `hyphen_splits`, `expand_given`, `name_variants`,
  `normalize_team`, `score_pair`, `score_player`, `match_player_row`.

Modelling conventions:

* Strings are Lean `String`s; all pipeline stages operate on `String.data`
  (`List Char`), so every definition is executable.
* Unicode facilities used by the Python code are modelled at finite precision:
  NFKD decomposition is a finite table over common Latin accented letters
  (identity on ASCII, as NFKD is), `str.lower`/`str.upper` are modelled on
  ASCII plus the same accented letters, and the `\w`/`\s` regex classes are
  modelled at ASCII precision.
* The optional third-party similarity and phonetic backends (`rapidfuzz`,
  `jellyfish`) are external collaborators: the four string-similarity metrics
  of `score_pair` and the phonetic encoder of `surname_phonetic` are
  parameters of the embedding, exactly mirroring the defensive-import
  structure of the source.  Threshold/decision logic is embedded concretely.
* Scores are exact rationals (`ℚ`); the Python floats carry exact decimal
  constants on the code paths embedded here.
-/

/-! Section: Character-level model -/

/-- Python `\s` (regex) and `str.strip()` whitespace class, ASCII precision:
space, tab, newline, carriage return, vertical tab, form feed. -/
def isPySpace (c : Char) : Bool :=
  c = ' ' || c = '\t' || c = '\n' || c = '\r' || c = '\x0b' || c = '\x0c'

/-- Python `\w` regex class at ASCII precision: `[A-Za-z0-9_]`. -/
def isWordChar (c : Char) : Bool :=
  c.isAlphanum || c = '_'

/-- Unicode combining-mark test used by `unicodedata.combining`, restricted to
the Combining Diacritical Marks block U+0300..U+036F that the finite NFKD
table below produces. -/
def isCombining (c : Char) : Bool :=
  0x300 ≤ c.toNat && c.toNat ≤ 0x36F

/-- Finite model of the NFKD decomposition table (`unicodedata.normalize
("NFKD", ·)`) over common Latin accented letters: each precomposed letter
decomposes into its ASCII base letter followed by a combining mark. -/
def nfkdTable : List (Char × List Char) :=
  [ ('á', ['a', '\u0301']), ('é', ['e', '\u0301']), ('í', ['i', '\u0301']),
    ('ó', ['o', '\u0301']), ('ú', ['u', '\u0301']), ('ñ', ['n', '\u0303']),
    ('ü', ['u', '\u0308']), ('ç', ['c', '\u0327']),
    ('Á', ['A', '\u0301']), ('É', ['E', '\u0301']), ('Í', ['I', '\u0301']),
    ('Ó', ['O', '\u0301']), ('Ú', ['U', '\u0301']), ('Ñ', ['N', '\u0303']),
    ('Ü', ['U', '\u0308']), ('Ç', ['C', '\u0327']) ]

/-- Per-character NFKD decomposition: identity on ASCII (NFKD is the identity
there), table lookup on the modelled accented letters, identity elsewhere. -/
def nfkdChar (c : Char) : List Char :=
  if c.toNat ≤ 0x7F then [c] else ((nfkdTable.lookup c).getD [c])

/-- Lower-case table for the modelled non-ASCII letters (Python `str.lower`
maps accented capitals to accented smalls). -/
def accLowerTable : List (Char × Char) :=
  [ ('Á', 'á'), ('É', 'é'), ('Í', 'í'), ('Ó', 'ó'), ('Ú', 'ú'),
    ('Ñ', 'ñ'), ('Ü', 'ü'), ('Ç', 'ç') ]

/-- Python `str.lower` per character: ASCII `A`-`Z` shift down by 32, the
modelled accented capitals via `accLowerTable`, identity elsewhere. -/
def pyLower (c : Char) : Char :=
  if c.toNat ≤ 0x7F then
    (if 'A' ≤ c ∧ c ≤ 'Z' then Char.ofNat (c.toNat + 32) else c)
  else
    (accLowerTable.lookup c).getD c

/-- Python `str.upper` per character, ASCII precision (the only caller,
`normalize_team`, compares against ASCII short codes). -/
def pyUpper (c : Char) : Char :=
  if 'a' ≤ c ∧ c ≤ 'z' then Char.ofNat (c.toNat - 32) else c

/-! Section: Whitespace collapsing and stripping

`_WS_RE.sub(" ", s)` replaces every maximal whitespace run with a single
space; `str.strip()` removes leading and trailing whitespace.  Both are
modelled directly on `List Char`. -/

/-- Python `re.sub(r"\s+", " ", s)`: each maximal whitespace run becomes one `' '`. -/
def wsSub : List Char → List Char
  | [] => []
  | [c] => if isPySpace c then [' '] else [c]
  | a :: b :: rest =>
    if isPySpace a then
      (if isPySpace b then wsSub (b :: rest) else ' ' :: wsSub (b :: rest))
    else a :: wsSub (b :: rest)

/-- Drop trailing Python whitespace (right half of `str.strip()`). -/
def dropTrail (l : List Char) : List Char :=
  (l.reverse.dropWhile isPySpace).reverse

/-- Python `str.strip()`. -/
def pyStrip (l : List Char) : List Char :=
  dropTrail (l.dropWhile isPySpace)

/-! Section: The two normalizers of the repository -/

/-- Model of `_strip_accents` of `init_fpl_elements.py` (NFKD fallback branch; the
`unidecode` branch is the optional external backend): decompose and drop
combining marks. -/
def stripAccentsF (l : List Char) : List Char :=
  (l.flatMap nfkdChar).filter (fun c => !isCombining c)

/-- The `[^\w\s-]` substitution of `init_fpl_elements.py` (`_PUNCT_RE`, hyphens
kept): non word/space/hyphen characters become spaces. -/
def punctSubF (c : Char) : Char :=
  if isWordChar c || isPySpace c || c = '-' then c else ' '

/-- List-level pipeline of `norm` (`init_fpl_elements.py`): strip accents,
lower-case, replace `[^\w\s-]` by spaces, collapse whitespace, trim. -/
def normFList (l : List Char) : List Char :=
  pyStrip (wsSub (((stripAccentsF l).map pyLower).map punctSubF))

/-- Function `norm` of `init_fpl_elements.py` / `preds_to_postgres.py`. -/
def normF (s : String) : String :=
  ⟨normFList s.data⟩

/-- Function `norm` applied to an arbitrary value: `s = "" if s is None else str(s)`. -/
def normFAny (o : Option String) : String :=
  normF (match o with | none => "" | some s => s)

/-- The `[^\w\s]` substitution of `link_understat_fbref.py` (`_punct`, hyphens
replaced too). -/
def punctSubU (c : Char) : Char :=
  if isWordChar c || isPySpace c then c else ' '

/-- List-level pipeline of `_norm` (`link_understat_fbref.py`): strip + lower
first, then NFKD and `encode("ascii", "ignore")` (drops every non-ASCII
character), then `[^\w\s]` to spaces, collapse whitespace, trim. -/
def normUList (l : List Char) : List Char :=
  pyStrip (wsSub (((((pyStrip l).map pyLower).flatMap nfkdChar).filter
      (fun c => c.toNat ≤ 0x7F)).map punctSubU))

/-- Function `_norm` of `link_understat_fbref.py`. -/
def normU (s : String) : String :=
  ⟨normUList s.data⟩

/-- Function `_norm` applied to an arbitrary value (`if s is None: return ""`). -/
def normUAny (o : Option String) : String :=
  match o with | none => "" | some s => normU s

/-! Section: Properties of the whitespace stage -/

/-- Collapsed-whitespace well-formedness: every whitespace character is a
plain `' '` not followed by further whitespace. -/
def okRun : List Char → Bool
  | [] => true
  | c :: rest =>
    (!isPySpace c || (c == ' ' && rest.head?.all (fun d => !isPySpace d)))
      && okRun rest

theorem okRun_tail {c : Char} {l : List Char} (h : okRun (c :: l) = true) :
    okRun l = true := by
  simp only [okRun, Bool.and_eq_true] at h
  exact h.2

theorem wsSub_head_not_space : ∀ {l : List Char} {c : Char},
    l.head? = some c → isPySpace c = false → (wsSub l).head? = some c
  | [a], c, h, hns => by
    simp only [List.head?] at h
    cases h
    simp [wsSub, hns]
  | a :: b :: rest, c, h, hns => by
    simp only [List.head?] at h
    cases h
    simp [wsSub, hns]

theorem okRun_wsSub : ∀ l : List Char, okRun (wsSub l) = true
  | [] => by simp [wsSub, okRun]
  | [c] => by
    by_cases h : isPySpace c = true
    · simp only [wsSub, h, if_pos]
      decide
    · simp [wsSub, h, okRun]
  | a :: b :: rest => by
    have ih := okRun_wsSub (b :: rest)
    by_cases ha : isPySpace a = true
    · by_cases hb : isPySpace b = true
      · simpa [wsSub, ha, hb] using ih
      · have hh := wsSub_head_not_space (l := b :: rest) rfl (by simpa using hb)
        simp [wsSub, ha, hb, okRun, ih, hh]
    · simp [wsSub, ha, okRun, ih]

theorem wsSub_eq_self : ∀ l : List Char, okRun l = true → wsSub l = l
  | [], _ => rfl
  | [c], h => by
    by_cases hc : isPySpace c = true
    · simp only [okRun, Option.all_none, Bool.and_true, hc, Bool.not_true,
        Bool.false_or, Bool.and_eq_true, beq_iff_eq, List.head?] at h
      simp [wsSub, hc, h]
    · simp [wsSub, hc]
  | a :: b :: rest, h => by
    have htl : okRun (b :: rest) = true := okRun_tail h
    have ih := wsSub_eq_self (b :: rest) htl
    by_cases ha : isPySpace a = true
    · simp only [okRun, List.head?, Option.all_some, ha, Bool.not_true,
        Bool.false_or, Bool.and_eq_true, beq_iff_eq] at h
      have hb : isPySpace b = false := by
        cases hpb : isPySpace b
        · rfl
        · rw [hpb] at h; exact absurd h.1.2 (by simp)
      simp [wsSub, ha, hb, ih, h.1.1]
    · simp [wsSub, ha, ih]

theorem okRun_dropWhile : ∀ l : List Char,
    okRun l = true → okRun (l.dropWhile isPySpace) = true
  | [], h => h
  | c :: rest, h => by
    by_cases hc : isPySpace c = true
    · rw [List.dropWhile_cons, if_pos hc]
      exact okRun_dropWhile rest (okRun_tail h)
    · rw [List.dropWhile_cons, if_neg (by simp [hc])]
      exact h

theorem okRun_take : ∀ (l : List Char) (n : Nat),
    okRun l = true → okRun (l.take n) = true
  | [], _, _ => by simp [okRun]
  | _ :: _, 0, _ => by simp [okRun]
  | c :: rest, n + 1, h => by
    have htl := okRun_tail h
    have ih := okRun_take rest n htl
    simp only [okRun, Bool.and_eq_true] at h ⊢
    refine ⟨?_, ih⟩
    rcases h with ⟨hhd, -⟩
    rw [List.head?_take]
    by_cases hn : n = 0
    · rw [if_pos hn]
      rcases Bool.or_eq_true_iff.mp hhd with h1 | h1
      · exact Bool.or_eq_true_iff.mpr (Or.inl h1)
      · exact Bool.or_eq_true_iff.mpr
          (Or.inr (by simp_all [Bool.and_eq_true]))
    · rw [if_neg hn]
      exact hhd

theorem okRun_of_pref {l₁ l₂ : List Char} (h : l₁ <+: l₂)
    (h₂ : okRun l₂ = true) : okRun l₁ = true := by
  obtain ⟨t, rfl⟩ := h
  have h3 := okRun_take (l₁ ++ t) l₁.length h₂
  simpa using h3

theorem dropTrail_pref (l : List Char) : dropTrail l <+: l := by
  have h1 : l.reverse.dropWhile isPySpace <:+ l.reverse :=
    List.dropWhile_suffix _
  have h2 := h1.reverse
  simpa [dropTrail] using h2

theorem okRun_dropTrail {l : List Char} (h : okRun l = true) :
    okRun (dropTrail l) = true :=
  okRun_of_pref (dropTrail_pref l) h

theorem okRun_pyStrip {l : List Char} (h : okRun l = true) :
    okRun (pyStrip l) = true :=
  okRun_dropTrail (okRun_dropWhile _ h)

theorem dropWhile_dropWhile_eq (p : Char → Bool) (l : List Char) :
    (l.dropWhile p).dropWhile p = l.dropWhile p := by
  induction l with
  | nil => rfl
  | cons c rest ih =>
    rw [List.dropWhile_cons]
    by_cases hc : p c = true
    · rw [if_pos hc]; exact ih
    · rw [if_neg hc, List.dropWhile_cons, if_neg hc]

theorem dropTrail_dropTrail (l : List Char) :
    dropTrail (dropTrail l) = dropTrail l := by
  simp [dropTrail, dropWhile_dropWhile_eq]

theorem head_not_space_of_dropWhile {l m : List Char}
    (h : l.dropWhile isPySpace = m) {c : Char} (hc : m.head? = some c) :
    isPySpace c = false := by
  have := List.head?_dropWhile_not isPySpace l
  rw [h, hc] at this
  exact this

theorem dropWhile_eq_self_of_head {m : List Char}
    (h : ∀ c, m.head? = some c → isPySpace c = false) :
    m.dropWhile isPySpace = m := by
  cases m with
  | nil => rfl
  | cons c rest =>
    rw [List.dropWhile_cons, if_neg (by simp [h c rfl])]

theorem pyStrip_pyStrip (l : List Char) : pyStrip (pyStrip l) = pyStrip l := by
  unfold pyStrip
  have hpre := dropTrail_pref (l.dropWhile isPySpace)
  have hdw : (dropTrail (l.dropWhile isPySpace)).dropWhile isPySpace
      = dropTrail (l.dropWhile isPySpace) := by
    apply dropWhile_eq_self_of_head
    intro c hc
    rcases hpre with ⟨t, ht⟩
    have hhead : (l.dropWhile isPySpace).head? = some c := by
      rw [← ht]
      cases hm : dropTrail (l.dropWhile isPySpace) with
      | nil => rw [hm] at hc; cases hc
      | cons d tl =>
        rw [hm] at hc
        simp only [List.head?] at hc
        cases hc
        simp
    exact head_not_space_of_dropWhile rfl hhead
  rw [hdw, dropTrail_dropTrail]

/-! Section: Character arithmetic bridges -/

theorem char_le_iff {a c : Char} : a ≤ c ↔ a.toNat ≤ c.toNat := by
  rw [Char.le_def]; exact ⟨fun h => h, fun h => h⟩

theorem char_isUpper_iff (c : Char) :
    c.isUpper = true ↔ 65 ≤ c.toNat ∧ c.toNat ≤ 90 := by
  simp only [Char.isUpper, Bool.and_eq_true, decide_eq_true_eq, ge_iff_le]
  exact ⟨fun h => ⟨h.1, h.2⟩, fun h => ⟨h.1, h.2⟩⟩

theorem char_isLower_iff (c : Char) :
    c.isLower = true ↔ 97 ≤ c.toNat ∧ c.toNat ≤ 122 := by
  simp only [Char.isLower, Bool.and_eq_true, decide_eq_true_eq, ge_iff_le]
  exact ⟨fun h => ⟨h.1, h.2⟩, fun h => ⟨h.1, h.2⟩⟩

theorem char_isDigit_iff (c : Char) :
    c.isDigit = true ↔ 48 ≤ c.toNat ∧ c.toNat ≤ 57 := by
  simp only [Char.isDigit, Bool.and_eq_true, decide_eq_true_eq, ge_iff_le]
  exact ⟨fun h => ⟨h.1, h.2⟩, fun h => ⟨h.1, h.2⟩⟩

theorem char_eq_of_toNat_eq {a c : Char} (h : a.toNat = c.toNat) : a = c :=
  Char.eq_of_val_eq (UInt32.ext h)

theorem toNat_ofNat_valid (n : Nat) (h : n < 0xd800) :
    (Char.ofNat n).toNat = n := by
  have hv : n.isValidChar := Or.inl h
  simp only [Char.ofNat, hv, dif_pos, Char.ofNatAux, Char.toNat]
  simp [UInt32.toNat]

/-! Section: Character classes closed under the normalization pipelines -/

/-- Characters that can occur in `normF` output: an ASCII word character that
is not upper case, a hyphen, or a single space. -/
def goodF (c : Char) : Bool :=
  (isWordChar c && !c.isUpper) || c = '-' || c = ' '

/-- Characters that can occur in `normU` output. -/
def goodU (c : Char) : Bool :=
  (isWordChar c && !c.isUpper) || c = ' '

theorem isWordChar_ascii {c : Char} (h : isWordChar c = true) :
    c.toNat ≤ 127 := by
  simp only [isWordChar, Char.isAlphanum, Char.isAlpha, Bool.or_eq_true] at h
  rcases h with ((h | h) | h) | h
  · exact le_trans ((char_isUpper_iff c).mp h).2 (by norm_num)
  · exact le_trans ((char_isLower_iff c).mp h).2 (by norm_num)
  · exact le_trans ((char_isDigit_iff c).mp h).2 (by norm_num)
  · simp only [decide_eq_true_eq] at h
    subst h; decide

theorem goodF_ascii {c : Char} (h : goodF c = true) : c.toNat ≤ 127 := by
  simp only [goodF, Bool.or_eq_true, Bool.and_eq_true, decide_eq_true_eq] at h
  rcases h with (⟨hw, -⟩ | rfl) | rfl
  · exact isWordChar_ascii hw
  · decide
  · decide

theorem goodF_not_AZ {c : Char} (h : goodF c = true) :
    ¬('A' ≤ c ∧ c ≤ 'Z') := by
  intro ⟨h1, h2⟩
  have h1' : 65 ≤ c.toNat := char_le_iff.mp h1
  have h2' : c.toNat ≤ 90 := char_le_iff.mp h2
  simp only [goodF, Bool.or_eq_true, Bool.and_eq_true, decide_eq_true_eq,
    Bool.not_eq_true'] at h
  rcases h with (⟨-, hu⟩ | rfl) | rfl
  · rw [Bool.eq_false_iff] at hu
    exact hu ((char_isUpper_iff c).mpr ⟨h1', h2'⟩)
  · simp at h1' h2'
  · simp at h1' h2'

theorem goodF_of_goodU {c : Char} (h : goodU c = true) : goodF c = true := by
  simp only [goodU, Bool.or_eq_true] at h
  simp only [goodF, Bool.or_eq_true]
  tauto

/-! Section: Association-table helpers -/

theorem lookup_mem {β : Type} :
    ∀ (tbl : List (Char × β)) (c : Char) (b : β),
      List.lookup c tbl = some b → (c, b) ∈ tbl := by
  intro tbl
  induction tbl with
  | nil => intro c b h; cases h
  | cons p rest ih =>
    intro c b h
    cases hb : (c == p.1) with
    | true =>
      simp only [List.lookup, hb] at h
      have hc : c = p.1 := by simpa using hb
      have hb2 : b = p.2 := by cases h; rfl
      have hp : (c, b) = p := by rw [hc, hb2]
      rw [hp]
      exact List.mem_cons_self _ _
    | false =>
      simp only [List.lookup, hb] at h
      exact List.mem_cons_of_mem _ (ih c b h)

theorem lookup_none_of_ascii {β : Type} :
    ∀ (tbl : List (Char × β)), (∀ p ∈ tbl, 127 < p.1.toNat) →
      ∀ c : Char, c.toNat ≤ 127 → List.lookup c tbl = none := by
  intro tbl
  induction tbl with
  | nil => intro _ c _; rfl
  | cons p rest ih =>
    intro hk c hc
    have hne : (c == p.1) = false := by
      rw [beq_eq_false_iff_ne]
      intro he
      have := hk p (List.mem_cons_self _ _)
      rw [← he] at this
      omega
    simp only [List.lookup, hne]
    exact ih (fun q hq => hk q (List.mem_cons_of_mem _ hq)) c hc

/-! Section: Facts about `pyLower` -/

theorem pyLower_not_upper (c : Char) : (pyLower c).isUpper = false := by
  unfold pyLower
  by_cases h7 : c.toNat ≤ 127
  · rw [if_pos h7]
    by_cases hAZ : 'A' ≤ c ∧ c ≤ 'Z'
    · rw [if_pos hAZ]
      have h2 : c.toNat ≤ 90 := by
        have := char_le_iff.mp hAZ.2
        have hZ : ('Z' : Char).toNat = 90 := rfl
        omega
      have h1 : 65 ≤ c.toNat := by
        have := char_le_iff.mp hAZ.1
        have hA : ('A' : Char).toNat = 65 := rfl
        omega
      have ht : (Char.ofNat (c.toNat + 32)).toNat = c.toNat + 32 :=
        toNat_ofNat_valid _ (by omega)
      rw [Bool.eq_false_iff]
      intro hu
      have hr := (char_isUpper_iff _).mp hu
      rw [ht] at hr
      omega
    · rw [if_neg hAZ]
      rw [Bool.eq_false_iff]
      intro hu
      have hb := (char_isUpper_iff c).mp hu
      have hA : ('A' : Char).toNat = 65 := rfl
      have hZ : ('Z' : Char).toNat = 90 := rfl
      exact hAZ ⟨char_le_iff.mpr (by omega), char_le_iff.mpr (by omega)⟩
  · rw [if_neg h7]
    cases hl : List.lookup c accLowerTable with
    | none =>
      rw [Option.getD_none]
      rw [Bool.eq_false_iff]
      intro hu
      have := (char_isUpper_iff c).mp hu
      omega
    | some v =>
      rw [Option.getD_some]
      have hmem := lookup_mem _ _ _ hl
      have hfact : ∀ p ∈ accLowerTable, p.2.isUpper = false := by decide
      exact hfact _ hmem

theorem pyLower_eq_self_of_goodF {c : Char} (h : goodF c = true) :
    pyLower c = c := by
  unfold pyLower
  rw [if_pos (goodF_ascii h), if_neg (goodF_not_AZ h)]

theorem pyLower_not_in_accKeys (c : Char) :
    List.lookup (pyLower c) accLowerTable = none := by
  have hkeys : ∀ p ∈ accLowerTable, 127 < p.1.toNat := by decide
  unfold pyLower
  by_cases hc7 : c.toNat ≤ 127
  · rw [if_pos hc7]
    by_cases hAZ : 'A' ≤ c ∧ c ≤ 'Z'
    · rw [if_pos hAZ]
      apply lookup_none_of_ascii _ hkeys
      have h2 : c.toNat ≤ 90 := by
        have := char_le_iff.mp hAZ.2
        have hZ : ('Z' : Char).toNat = 90 := rfl
        omega
      rw [toNat_ofNat_valid _ (by omega)]
      omega
    · rw [if_neg hAZ]
      exact lookup_none_of_ascii _ hkeys _ hc7
  · rw [if_neg hc7]
    cases hl : List.lookup c accLowerTable with
    | none => rw [Option.getD_none]; exact hl
    | some v =>
      rw [Option.getD_some]
      have hmem := lookup_mem _ _ _ hl
      have hfact : ∀ p ∈ accLowerTable,
          List.lookup p.2 accLowerTable = none := by decide
      exact hfact _ hmem

theorem mem_nfkd_pyLower_not_upper {d x : Char}
    (hx : x ∈ nfkdChar (pyLower d)) : x.isUpper = false := by
  unfold nfkdChar at hx
  by_cases h7 : (pyLower d).toNat ≤ 127
  · rw [if_pos h7] at hx
    simp only [List.mem_singleton] at hx
    rw [hx]
    exact pyLower_not_upper d
  · rw [if_neg h7] at hx
    cases hl : List.lookup (pyLower d) nfkdTable with
    | none =>
      rw [hl, Option.getD_none] at hx
      simp only [List.mem_singleton] at hx
      rw [hx]
      exact pyLower_not_upper d
    | some v =>
      rw [hl, Option.getD_some] at hx
      have hmem := lookup_mem _ _ _ hl
      have hnk := pyLower_not_in_accKeys d
      have hfact : ∀ p ∈ nfkdTable, List.lookup p.1 accLowerTable = none →
          ∀ y ∈ p.2, y.isUpper = false := by decide
      exact hfact _ hmem hnk _ hx

/-! Section: Stage identities on already-normalized text -/

theorem map_eq_self_of {f : Char → Char} :
    ∀ l : List Char, (∀ c ∈ l, f c = c) → l.map f = l
  | [], _ => rfl
  | c :: rest, h => by
    rw [List.map_cons, h c (List.mem_cons_self _ _),
      map_eq_self_of rest (fun d hd => h d (List.mem_cons_of_mem _ hd))]

theorem flatMap_nfkd_eq_self :
    ∀ l : List Char, (∀ c ∈ l, c.toNat ≤ 127) → l.flatMap nfkdChar = l
  | [], _ => rfl
  | c :: rest, h => by
    rw [List.flatMap_cons, flatMap_nfkd_eq_self rest
      (fun d hd => h d (List.mem_cons_of_mem _ hd))]
    unfold nfkdChar
    rw [if_pos (h c (List.mem_cons_self _ _))]
    rfl

theorem stripAccentsF_eq_self (l : List Char)
    (h : ∀ c ∈ l, c.toNat ≤ 127) : stripAccentsF l = l := by
  unfold stripAccentsF
  rw [flatMap_nfkd_eq_self l h]
  rw [List.filter_eq_self]
  intro c hc
  have := h c hc
  simp only [isCombining, Bool.not_eq_true']
  rw [Bool.and_eq_false_iff]
  left
  simp only [decide_eq_false_iff_not]
  omega

theorem punctSubF_eq_self_of_goodF {c : Char} (h : goodF c = true) :
    punctSubF c = c := by
  unfold punctSubF
  simp only [goodF, Bool.or_eq_true, Bool.and_eq_true, decide_eq_true_eq] at h
  rcases h with (⟨hw, -⟩ | rfl) | rfl
  · rw [if_pos (by simp [hw])]
  · rw [if_pos (by simp)]
  · rw [if_pos (by simp [isPySpace])]

theorem punctSubU_eq_self_of_goodU {c : Char} (h : goodU c = true) :
    punctSubU c = c := by
  unfold punctSubU
  simp only [goodU, Bool.or_eq_true, Bool.and_eq_true, decide_eq_true_eq] at h
  rcases h with ⟨hw, -⟩ | rfl
  · rw [if_pos (by simp [hw])]
  · rw [if_pos (by simp [isPySpace])]

/-! Section: Membership in collapsed output -/

theorem mem_wsSub : ∀ {l : List Char} {c : Char}, c ∈ wsSub l →
    c = ' ' ∨ (c ∈ l ∧ isPySpace c = false)
  | [], c, h => by cases h
  | [a], c, h => by
    by_cases ha : isPySpace a = true
    · rw [wsSub, if_pos ha] at h
      simp only [List.mem_singleton] at h
      exact Or.inl h
    · rw [wsSub, if_neg ha] at h
      simp only [List.mem_singleton] at h
      subst h
      exact Or.inr ⟨List.mem_singleton_self _, by simpa using ha⟩
  | a :: b :: rest, c, h => by
    by_cases ha : isPySpace a = true
    · by_cases hb : isPySpace b = true
      · rw [wsSub, if_pos ha, if_pos hb] at h
        rcases mem_wsSub h with h1 | ⟨h1, h2⟩
        · exact Or.inl h1
        · exact Or.inr ⟨List.mem_cons_of_mem _ h1, h2⟩
      · rw [wsSub, if_pos ha, if_neg hb] at h
        rcases List.mem_cons.mp h with rfl | h1
        · exact Or.inl rfl
        · rcases mem_wsSub h1 with h2 | ⟨h2, h3⟩
          · exact Or.inl h2
          · exact Or.inr ⟨List.mem_cons_of_mem _ h2, h3⟩
    · rw [wsSub, if_neg ha] at h
      rcases List.mem_cons.mp h with rfl | h1
      · exact Or.inr ⟨List.mem_cons_self _ _, by simpa using ha⟩
      · rcases mem_wsSub h1 with h2 | ⟨h2, h3⟩
        · exact Or.inl h2
        · exact Or.inr ⟨List.mem_cons_of_mem _ h2, h3⟩

theorem mem_pyStrip {l : List Char} {c : Char} (h : c ∈ pyStrip l) : c ∈ l := by
  unfold pyStrip at h
  have h1 : c ∈ l.dropWhile isPySpace :=
    (dropTrail_pref _).subset h
  exact (List.dropWhile_suffix _).subset h1

/-! Section: Character classes of the normalizer outputs -/

theorem goodF_mem_normFList (l : List Char) :
    ∀ c ∈ normFList l, goodF c = true := by
  intro c hc
  unfold normFList at hc
  have h1 := mem_pyStrip hc
  rcases mem_wsSub h1 with rfl | ⟨h2, h3⟩
  · decide
  · rcases List.mem_map.mp h2 with ⟨x, hx, rfl⟩
    rcases List.mem_map.mp hx with ⟨d, hd, rfl⟩
    have hup : (pyLower d).isUpper = false := pyLower_not_upper d
    unfold punctSubF at h3 ⊢
    by_cases hcond :
        (isWordChar (pyLower d) || isPySpace (pyLower d)
          || decide (pyLower d = '-')) = true
    · rw [if_pos hcond] at h3 ⊢
      rcases Bool.or_eq_true_iff.mp hcond with hc1 | hc1
      · rcases Bool.or_eq_true_iff.mp hc1 with hw | hs
        · simp [goodF, hw, hup]
        · rw [hs] at h3; cases h3
      · simp only [decide_eq_true_eq] at hc1
        simp [goodF, hc1]
    · rw [if_neg hcond] at h3 ⊢
      decide

theorem goodU_mem_normUList (l : List Char) :
    ∀ c ∈ normUList l, goodU c = true := by
  intro c hc
  unfold normUList at hc
  have h1 := mem_pyStrip hc
  rcases mem_wsSub h1 with rfl | ⟨h2, h3⟩
  · decide
  · rcases List.mem_map.mp h2 with ⟨x, hx, rfl⟩
    have hx' := List.mem_filter.mp hx
    rcases List.mem_flatMap.mp hx'.1 with ⟨e, he, hxe⟩
    rcases List.mem_map.mp he with ⟨d, hd, rfl⟩
    have hup : x.isUpper = false := mem_nfkd_pyLower_not_upper hxe
    unfold punctSubU at h3 ⊢
    by_cases hcond : (isWordChar x || isPySpace x) = true
    · rw [if_pos hcond] at h3 ⊢
      rcases Bool.or_eq_true_iff.mp hcond with hw | hs
      · simp [goodU, hw, hup]
      · rw [hs] at h3; cases h3
    · rw [if_neg hcond] at h3 ⊢
      decide

/-! Section: Idempotence of the normalizers -/

theorem okRun_normFList (l : List Char) : okRun (normFList l) = true :=
  okRun_pyStrip (okRun_wsSub _)

theorem pyStrip_normFList (l : List Char) :
    pyStrip (normFList l) = normFList l :=
  pyStrip_pyStrip _

theorem okRun_normUList (l : List Char) : okRun (normUList l) = true :=
  okRun_pyStrip (okRun_wsSub _)

theorem pyStrip_normUList (l : List Char) :
    pyStrip (normUList l) = normUList l :=
  pyStrip_pyStrip _

theorem normFList_idem (l : List Char) :
    normFList (normFList l) = normFList l := by
  have hg := goodF_mem_normFList l
  have h1 : stripAccentsF (normFList l) = normFList l :=
    stripAccentsF_eq_self _ (fun c hc => goodF_ascii (hg c hc))
  have h2 : (normFList l).map pyLower = normFList l :=
    map_eq_self_of _ (fun c hc => pyLower_eq_self_of_goodF (hg c hc))
  have h3 : (normFList l).map punctSubF = normFList l :=
    map_eq_self_of _ (fun c hc => punctSubF_eq_self_of_goodF (hg c hc))
  have h4 : wsSub (normFList l) = normFList l :=
    wsSub_eq_self _ (okRun_normFList l)
  show pyStrip (wsSub (((stripAccentsF (normFList l)).map pyLower).map
      punctSubF)) = normFList l
  rw [h1, h2, h3, h4, pyStrip_normFList]

theorem normUList_idem (l : List Char) :
    normUList (normUList l) = normUList l := by
  have hg := goodU_mem_normUList l
  have h0 : pyStrip (normUList l) = normUList l := pyStrip_normUList l
  have h2 : (normUList l).map pyLower = normUList l :=
    map_eq_self_of _
      (fun c hc => pyLower_eq_self_of_goodF (goodF_of_goodU (hg c hc)))
  have h3 : (normUList l).flatMap nfkdChar = normUList l :=
    flatMap_nfkd_eq_self _
      (fun c hc => goodF_ascii (goodF_of_goodU (hg c hc)))
  have h4 : (normUList l).filter (fun c => c.toNat ≤ 0x7F) = normUList l := by
    rw [List.filter_eq_self]
    intro c hc
    simp only [decide_eq_true_eq]
    exact goodF_ascii (goodF_of_goodU (hg c hc))
  have h5 : (normUList l).map punctSubU = normUList l :=
    map_eq_self_of _ (fun c hc => punctSubU_eq_self_of_goodU (hg c hc))
  have h6 : wsSub (normUList l) = normUList l :=
    wsSub_eq_self _ (okRun_normUList l)
  show pyStrip (wsSub ((((((pyStrip (normUList l)).map pyLower).flatMap
      nfkdChar).filter (fun c => c.toNat ≤ 0x7F)).map punctSubU))) = normUList l
  rw [h0, h2, h3, h4, h5, h6, pyStrip_normUList]

theorem normF_idem (s : String) : normF (normF s) = normF s := by
  show (⟨normFList (normFList s.data)⟩ : String) = ⟨normFList s.data⟩
  rw [normFList_idem]

theorem normU_idem (s : String) : normU (normU s) = normU s := by
  show (⟨normUList (normUList s.data)⟩ : String) = ⟨normUList s.data⟩
  rw [normUList_idem]

/-! Section: Token machinery (`init_fpl_elements.py`) -/

/-- Python `str.split()` (no separator): maximal non-whitespace runs, no
empty chunks.  `acc` carries the current word reversed. -/
def splitWordsAux : List Char → List Char → List (List Char)
  | [], acc => if acc.isEmpty then [] else [acc.reverse]
  | c :: rest, acc =>
    if isPySpace c then
      (if acc.isEmpty then splitWordsAux rest []
       else acc.reverse :: splitWordsAux rest [])
    else splitWordsAux rest (c :: acc)

/-- Python `str.split()`. -/
def pySplit (s : String) : List String :=
  (splitWordsAux s.data []).map (fun w => ⟨w⟩)

/-- Function `tokens(s)`: `[t for t in norm(s).split() if t]`. -/
def tokens (s : String) : List String :=
  (pySplit (normF s)).filter (fun t => t ≠ "")

/-- Function `first_last(s)`: first and last token (both equal to the single token for
a one-token name, `("", "")` when there are no tokens). -/
def first_last (s : String) : String × String :=
  match tokens s with
  | [] => ("", "")
  | t :: ts => (t, ts.getLastD t)

/-- The `CONNECTORS` set of linking particles. -/
def CONNECTORS : List String :=
  ["da", "de", "del", "della", "der", "di", "la", "le", "van", "von",
   "dos", "das", "do", "du", "mc", "mac"]

/-- Function `prune_connectors(ts)`. -/
def prune_connectors (ts : List String) : List String :=
  ts.filter (fun t => !(CONNECTORS.contains t))

/-- Python `str.split(sep)` on a single separator character: keeps empty
chunks (e.g. `"a--b"` splits into `a`, `""`, `b`). -/
def splitOnAux (sep : Char) : List Char → List Char → List (List Char)
  | [], acc => [acc.reverse]
  | c :: rest, acc =>
    if c = sep then acc.reverse :: splitOnAux sep rest []
    else splitOnAux sep rest (c :: acc)

/-- Python `str.split(sep)`. -/
def pySplitOn (sep : Char) (s : String) : List String :=
  (splitOnAux sep s.data []).map (fun w => ⟨w⟩)

/-- Python `" ".join(parts)`. -/
def joinSpace : List String → String
  | [] => ""
  | [x] => x
  | x :: y :: xs => x ++ " " ++ joinSpace (y :: xs)

/-- Python `f"{f} {l}".strip()`. -/
def strCatStrip (f l : String) : String :=
  ⟨pyStrip (f.data ++ ' ' :: l.data)⟩

/-- Codepoint-lexicographic order on character lists (Python string
comparison). -/
def strLeChars : List Char → List Char → Bool
  | [], _ => true
  | _ :: _, [] => false
  | a :: as, b :: bs =>
    if a.toNat < b.toNat then true
    else if b.toNat < a.toNat then false
    else strLeChars as bs

/-- Python `<=` on strings. -/
def pyStrLe (a b : String) : Bool :=
  strLeChars a.data b.data

/-- Sorted insertion (auxiliary for the model of Python `sorted`). -/
def insertSorted (x : String) : List String → List String
  | [] => [x]
  | y :: ys => if pyStrLe x y then x :: y :: ys else y :: insertSorted x ys

/-- Stable insertion sort modelling Python `sorted` (lexicographic string
order). -/
def insertionSort : List String → List String
  | [] => []
  | x :: xs => insertSorted x (insertionSort xs)

/-- Python `sorted(set(l))`: set semantics realized as first-occurrence
deduplication followed by a lexicographic sort. -/
def pySortedSet (l : List String) : List String :=
  insertionSort (l.dedup)

/-- Function `hyphen_splits(name)`: the normalized form when there is no hyphen;
otherwise the space-joined non-empty hyphen parts plus each part. -/
def hyphen_splits (name : String) : List String :=
  let n := normF name
  if n.data.contains '-' = false then [n]
  else
    let parts := (pySplitOn '-' n).filter (fun p => p ≠ "")
    pySortedSet (joinSpace parts :: parts)

/-- The `NICKNAMES` given-name expansion map. -/
def NICKNAMES : List (String × String) :=
  [("alex", "alexander"), ("sasha", "alexander"),
   ("will", "william"), ("bill", "william"), ("billy", "william"),
   ("liam", "william"),
   ("ben", "benjamin"), ("jamie", "james"), ("jim", "james"),
   ("joe", "joseph"), ("josh", "joshua"), ("matty", "matthew"),
   ("matt", "matthew"),
   ("toni", "antonio"), ("tony", "anthony"),
   ("harry", "harold"),
   ("nick", "nicholas"), ("nico", "nicholas"),
   ("luiz", "luis"), ("lucho", "luis")]

/-- Function `expand_given(name)`: the name itself, plus the nickname-expanded
`f"{alt} {l}"` form when the first name has a known mapping. -/
def expand_given (name : String) : List String :=
  let fl := first_last name
  match List.lookup fl.1 NICKNAMES with
  | some alt => [name, strCatStrip alt fl.2]
  | none => [name]

/-- Component `ts_nc` of `name_variants`: the particle-pruned token list. -/
def nv_ts_nc (name : String) : List String :=
  prune_connectors (tokens name)

/-- Component `(f, l)` of `name_variants`: `(ts_nc[0], ts_nc[-1]) if ts_nc else
first_last(name)`. -/
def nv_fl (name : String) : String × String :=
  match nv_ts_nc name with
  | [] => first_last name
  | t :: rest => (t, rest.getLastD t)

/-- The first variant added by `name_variants`:
`" ".join(ts_nc) if ts_nc else base`. -/
def nv_joined (name : String) : String :=
  match nv_ts_nc name with
  | [] => normF name
  | t :: rest => joinSpace (t :: rest)

/-- Function `name_variants(name)` of `init_fpl_elements.py` / `preds_to_postgres.py`.
The Python builds a `set`; the embedding accumulates the same additions in
order and applies `sorted(set(...))` at the end (`pySortedSet`), filtering
empty strings exactly as `sorted(v for v in variants if v)` does. -/
def name_variants (name : String) : List String :=
  if normF name = "" then []
  else
    pySortedSet ((nv_joined name ::
      ((if (nv_fl name).1 ≠ "" ∨ (nv_fl name).2 ≠ "" then
          [strCatStrip (nv_fl name).1 (nv_fl name).2,
           (if (nv_fl name).1 ≠ "" then
              strCatStrip (⟨(nv_fl name).1.data.take 1⟩) (nv_fl name).2
            else (nv_fl name).2),
           (nv_fl name).2,
           strCatStrip (nv_fl name).2 (nv_fl name).1]
        else [])
        ++ hyphen_splits (nv_joined name)
        ++ (expand_given (strCatStrip (nv_fl name).1 (nv_fl name).2)).map
            normF)).filter (fun v => v ≠ ""))

/-- Function `surname_phonetic(surname)`: the `jellyfish` metaphone/soundex backend is
an optional external collaborator, modelled as the `backend` parameter; the
source returns `""` for an empty surname and `""` when no backend is
available. -/
def surname_phonetic (backend : String → String) (surname : String) : String :=
  if surname = "" then "" else backend surname

/-- The no-backend instantiation (`jellyfish is None`). -/
def phonNone : String → String := fun _ => ""

/-! Section: Team canonicalization (`init_fpl_elements.py`) -/

/-- The `SHORT_TO_NAME` short-code table. -/
def SHORT_TO_NAME : List (String × String) :=
  [("ARS", "Arsenal"), ("AVL", "Aston Villa"), ("BOU", "Bournemouth"),
   ("BRE", "Brentford"), ("BHA", "Brighton"), ("BUR", "Burnley"),
   ("CHE", "Chelsea"), ("CRY", "Crystal Palace"), ("EVE", "Everton"),
   ("FUL", "Fulham"), ("LEE", "Leeds"), ("LIV", "Liverpool"),
   ("MCI", "Manchester City"), ("MUN", "Manchester United"),
   ("NEW", "Newcastle United"), ("NFO", "Nottingham Forest"),
   ("TOT", "Tottenham"), ("WHU", "West Ham"),
   ("WOL", "Wolverhampton Wanderers"), ("LEI", "Leicester City"),
   ("SOU", "Southampton"), ("NOR", "Norwich City"), ("WAT", "Watford"),
   ("SHE", "Sheffield United"), ("IPS", "Ipswich Town"),
   ("SUN", "Sunderland")]

/-- The `TEAM_ALIASES` alias table (keys are normalized forms). -/
def TEAM_ALIASES : List (String × String) :=
  [("spurs", "Tottenham"), ("wolves", "Wolverhampton Wanderers"),
   ("man city", "Manchester City"), ("man utd", "Manchester United"),
   ("manchester utd", "Manchester United"),
   ("brighton & hove albion", "Brighton"), ("forest", "Nottingham Forest"),
   ("west ham united", "West Ham"), ("leeds united", "Leeds")]

/-- Python `str.upper` on a string (ASCII model). -/
def pyUpperStr (s : String) : String :=
  ⟨s.data.map pyUpper⟩

/-- Python `str.lower` on a string. -/
def pyLowerStr (s : String) : String :=
  ⟨s.data.map pyLower⟩

/-- Python `str.strip()` on a string. -/
def pyStripStr (s : String) : String :=
  ⟨pyStrip s.data⟩

/-- Function `normalize_team(raw, team_normset)` of `init_fpl_elements.py`: short
codes first, then the alias table on the normalized label; in the source the
final membership test against `team_normset` returns `s` on BOTH branches,
so the fallback is the stripped raw label. -/
def normalize_team (raw : Option String) (team_normset : List String) : String :=
  match raw with
  | none => ""
  | some raw0 =>
    let s := pyStripStr raw0
    let code := pyUpperStr s
    match List.lookup code SHORT_TO_NAME with
    | some nm => nm
    | none =>
      match List.lookup (normF s) TEAM_ALIASES with
      | some al => al
      | none => if (normF s) ∈ team_normset then s else s

/-! Section: Similarity scoring (`score_pair` / `score_player`)

The four string-similarity metrics come from the optional `rapidfuzz` /
`jellyfish` backends (`fuzz.WRatio`, `fuzz.token_set_ratio`,
`fuzz.token_sort_ratio`, `jaro_winkler`), with a `difflib` fallback; they are
external collaborators and therefore parameters of the embedding, already
scaled to `[0,1]` as in the source (`/ 100.0`). -/

structure Metrics where
  w : String → String → ℚ
  ts : String → String → ℚ
  tr : String → String → ℚ
  jw : String → String → ℚ

/-- Function `score_pair(a, b)`: normalize both; 0 when either normalized side is
empty; otherwise the fixed blend `0.35*ts + 0.25*w + 0.20*tr + 0.20*jw`
clamped into `[0,1]` (`float(max(0.0, min(1.0, base)))`). -/
def score_pair (m : Metrics) (a b : String) : ℚ :=
  let a_n := normF a
  let b_n := normF b
  if a_n = "" ∨ b_n = "" then 0
  else
    max 0 (min 1 (0.35 * m.ts a_n b_n + 0.25 * m.w a_n b_n
      + 0.20 * m.tr a_n b_n + 0.20 * m.jw a_n b_n))

/-- One row of the flattened player catalog (`flatten_players`); only the
columns that `score_player` / `match_player_row` read are modelled
(the unused `norm_player` / `tok_player` diagnostics columns are omitted). -/
structure PCand where
  player_name : String
  catalog_team_name : String
  fbref_id : String
  understat_id : String
  norm_team : String
  surname : String
  surname_phon : String
  variants : List String
deriving DecidableEq

/-- The three bonuses of `score_player`.  The source evaluates these three
conditions inside the variant loop, but none depends on the loop variable,
so they are hoisted into one definition: +0.05 for an exact surname match,
+0.03 for a first-initial match, +0.03 for a non-empty phonetic surname
match. -/
def scoreBonus (phon : String → String) (pred_name : String) (c : PCand) : ℚ :=
  let fl := first_last pred_name
  let ph_pred := surname_phonetic phon fl.2
  (if fl.2 ≠ "" ∧ c.surname ≠ "" ∧ fl.2 = c.surname then 0.05 else 0)
  + (if fl.1 ≠ "" ∧ c.player_name ≠ "" ∧
        (first_last c.player_name).1 ≠ "" ∧
        fl.1.data.take 1 = (first_last c.player_name).1.data.take 1
      then 0.03 else 0)
  + (if ph_pred ≠ "" ∧ c.surname_phon ≠ "" ∧ ph_pred = c.surname_phon
      then 0.03 else 0)

/-- Expression `cand_row.get("variants", []) or [cand_row.get("player_name","")]`. -/
def effVariants (c : PCand) : List String :=
  if c.variants.isEmpty then [c.player_name] else c.variants

/-- Function `score_player(pred_name, cand_row)`: loop over the variants keeping the
best `min(1, score_pair + bonus)` (strict improvement, so the first maximal
variant is retained).  The second component is the retained best variant (the
payload of the source's debug string). -/
def score_player (phon : String → String) (m : Metrics) (pred_name : String)
    (c : PCand) : ℚ × String :=
  (effVariants c).foldl (fun best v =>
    let s := score_pair m pred_name v
    let s_final := min 1 (s + scoreBonus phon pred_name c)
    if s_final > best.1 then (s_final, v) else best) (0, "")

/-! Section: `match_player_row` (`init_fpl_elements.py` / `preds_to_postgres.py`) -/

/-- Result tuple of `match_player_row`:
`(fbref_id, understat_id, matched_player_name, matched_team, method,
confidence)`; the trailing debug string is presentation only and omitted.
The source's `r["fbref_id"] or ""` is the identity on strings and is embedded
as the plain field. -/
structure MPRResult where
  fbref_id : String
  understat_id : String
  matched_player_name : String
  matched_team : String
  method : String
  confidence : ℚ
deriving DecidableEq

/-- Function `pick_best(df)`: fold with strict improvement starting from
`(None, 0.0)`. -/
def pickBest (phon : String → String) (m : Metrics) (pred_name : String)
    (df : List PCand) : Option PCand × ℚ :=
  df.foldl (fun acc r =>
    let s := (score_player phon m pred_name r).1
    if s > acc.2 then (some r, s) else acc) (none, 0)

/-- The `("", "", "", "", "none", 0.0)` fall-through return. -/
def mprNone : MPRResult :=
  ⟨"", "", "", "", "none", 0⟩

/-- Step 2 of `match_player_row`: the global fallback over the whole
catalog. -/
def mprGlobal (phon : String → String) (m : Metrics) (pred_name : String)
    (catalog : List PCand) (gt : ℚ) : MPRResult :=
  let rs := pickBest phon m pred_name catalog
  match rs.1 with
  | some r =>
    if rs.2 ≥ gt then
      ⟨r.fbref_id, r.understat_id, r.player_name, r.catalog_team_name,
        "global", rs.2⟩
    else mprNone
  | none => mprNone

/-- Function `match_player_row(pred_name, team_name, catalog, team_threshold,
global_threshold)`. -/
def match_player_row (phon : String → String) (m : Metrics)
    (pred_name team_name : String) (catalog : List PCand)
    (tt gt : ℚ) : MPRResult :=
  let tnorm := normF team_name
  let sub :=
    if tnorm = "" then []
    else catalog.filter (fun r => r.norm_team == tnorm)
  if sub.isEmpty then mprGlobal phon m pred_name catalog gt
  else
    let rs := pickBest phon m pred_name sub
    match rs.1 with
    | some r =>
      if rs.2 ≥ tt then
        ⟨r.fbref_id, r.understat_id, r.player_name, r.catalog_team_name,
          "team_block", rs.2⟩
      else mprGlobal phon m pred_name catalog gt
    | none => mprGlobal phon m pred_name catalog gt

/-- Default `team_threshold` of `match_player_row`. -/
def mpr_team_threshold_default : ℚ := 0.84

/-- Default `global_threshold` of `match_player_row`. -/
def mpr_global_threshold_default : ℚ := 0.88

/-! Section: `build_player_xref` per-target decision (`link_understat_fbref.py`) -/

/-- One understat target row (`players` table): the matcher reads the
normalized player name and the position. -/
structure UTarget where
  player_name : String
  position : String
deriving DecidableEq

/-- One FBref candidate row as prepared by `build_player_xref` (`fbref_pos`
may be NULL). -/
structure FBCand where
  fbref_player_id : String
  fbref_name : String
  fbref_pos : Option String
deriving DecidableEq

/-- Per-target outcome of `build_player_xref`: an accepted cross-reference
row or an unmatched diagnostic row.  The freshly minted `uuid4`
`canonical_player_id` and the pass-through team ids are omitted; `best`
carries the `(best_candidate, best_score)` diagnostics of the `low_score`
case. -/
inductive XOutcome
  | accepted (fbref_player_id fbref_name : String) (method : String)
      (confidence : ℚ)
  | unmatched (reason : String) (best : Option (String × ℚ))
deriving DecidableEq

/-- The fuzzy-step argmax: pandas `sort_values('score', ascending=False)`
followed by `iloc[0]`, i.e. the first candidate attaining the maximal
`_sim` score in input order. -/
def linkBest (sim : String → String → ℚ) (u_name : String)
    (c0 : FBCand) (rest : List FBCand) : FBCand × ℚ :=
  rest.foldl (fun b c =>
    let s := sim u_name (normU c.fbref_name)
    if s > b.2 then (c, s) else b) (c0, sim u_name (normU c0.fbref_name))

/-- The branch of `build_player_xref` on the exact-match set
`cands[cands['norm_name'] == u_name]` (given together with the full bucket
head `c0 :: rest` for the fuzzy fallback): one exact match is accepted
outright; two or more are tie-broken by the first letter of the target's
position (`fbref_pos.fillna("").str.lower().str.startswith(pos)`, stably
sorted, first row); no exact match falls through to the fuzzy scores. -/
def linkAfterBlock (sim : String → String → ℚ) (strict fuzzy : ℚ)
    (t : UTarget) (c0 : FBCand) (rest : List FBCand) :
    List FBCand → XOutcome
  | [e] => .accepted e.fbref_player_id e.fbref_name "exact_norm_same_team" 100
  | e1 :: e2 :: es =>
    let pos := (pyLowerStr t.position).data.take 1
    let chosen :=
      if pos.isEmpty then e1
      else
        ((e1 :: e2 :: es).find? (fun c =>
          (pyLowerStr (c.fbref_pos.getD "")).data.take pos.length == pos)
        ).getD e1
    .accepted chosen.fbref_player_id chosen.fbref_name
      "exact_norm_same_team_tiebreak" 99
  | [] =>
    let top := linkBest sim (normU t.player_name) c0 rest
    if top.2 ≥ strict then
      .accepted top.1.fbref_player_id top.1.fbref_name
        "fuzzy_strict_same_team" top.2
    else if top.2 ≥ fuzzy then
      .accepted top.1.fbref_player_id top.1.fbref_name
        "fuzzy_same_team" top.2
    else
      .unmatched "low_score" (some (top.1.fbref_name, top.2))

/-- The per-target decision of `build_player_xref` (`strict=97`, `fuzzy=90`
scale 0..100).  The bucket is `fb_by_team.get(u_team)`; an absent or empty
bucket yields the `no_team_candidates` diagnostic.  Names are compared on
their `_norm` forms (the source precomputes the `norm_name` columns). -/
def linkMatch (sim : String → String → ℚ) (strict fuzzy : ℚ) (t : UTarget)
    (bucket : List FBCand) : XOutcome :=
  match bucket with
  | [] => .unmatched "no_team_candidates" none
  | c0 :: rest =>
    linkAfterBlock sim strict fuzzy t c0 rest
      ((c0 :: rest).filter
        (fun c => normU c.fbref_name == normU t.player_name))

/-- Default `strict` threshold of `build_player_xref` (0..100 scale). -/
def link_strict_default : ℚ := 97

/-- Default `fuzzy` threshold of `build_player_xref` (0..100 scale). -/
def link_fuzzy_default : ℚ := 90

/-- Whether a per-target outcome is an accepted cross-reference row. -/
def linkIsAccepted : XOutcome → Bool
  | .accepted _ _ _ _ => true
  | .unmatched _ _ => false

/-- Loop of `build_player_xref`: each target contributes exactly one row,
either to `xrows` or to `umiss`. -/
def linkProcess (sim : String → String → ℚ) (strict fuzzy : ℚ)
    (targets : List (UTarget × List FBCand)) : List XOutcome × List XOutcome :=
  (targets.map (fun p => linkMatch sim strict fuzzy p.1 p.2)).partition
    linkIsAccepted

/-! Section: Fold lemmas for the best-score loops -/

theorem foldl_best_fst (g : String → ℚ) :
    ∀ (l : List String) (b : ℚ × String),
      (l.foldl (fun best v => if g v > best.1 then (g v, v) else best) b).1
        = l.foldr (fun v acc => max (g v) acc) b.1
  | [], b => rfl
  | v :: vs, b => by
    rw [List.foldl_cons, List.foldr_cons, foldl_best_fst g vs]
    have hstep : (if g v > b.1 then (g v, v) else b).1 = max (g v) b.1 := by
      by_cases h : g v > b.1
      · rw [if_pos h, max_eq_left (le_of_lt h)]
      · rw [if_neg h, max_eq_right (le_of_not_lt h)]
    rw [hstep]
    clear hstep
    induction vs with
    | nil => rfl
    | cons w ws ih =>
      rw [List.foldr_cons, List.foldr_cons, ih, max_left_comm]

theorem min_one_add_max_comm {B x y : ℚ} :
    max (min 1 (x + B)) (min 1 (y + B)) = min 1 (max x y + B) := by
  rcases le_total x y with h | h
  · rw [max_eq_right h,
      max_eq_right (min_le_min le_rfl (add_le_add_right h B))]
  · rw [max_eq_left h,
      max_eq_left (min_le_min le_rfl (add_le_add_right h B))]

theorem foldr_scoremax (sp : String → ℚ) (B : ℚ) (hB : 0 ≤ B)
    (hsp : ∀ v, 0 ≤ sp v) :
    ∀ (v : String) (vs : List String),
      List.foldr (fun w acc => max (min 1 (sp w + B)) acc) 0 (v :: vs)
        = min 1 (List.foldr (fun w acc => max (sp w) acc) 0 (v :: vs) + B)
  | v, [] => by
    have h0 : (0 : ℚ) ≤ min 1 (sp v + B) :=
      le_min (by norm_num) (by have := hsp v; linarith)
    rw [List.foldr_cons, List.foldr_cons, List.foldr_nil, List.foldr_nil,
      max_eq_left h0, max_eq_left (hsp v)]
  | v, w :: ws => by
    rw [List.foldr_cons, foldr_scoremax sp B hB hsp w ws,
      min_one_add_max_comm]
    simp only [List.foldr_cons]

/-! Section: `pick_best` invariants -/

theorem pickBest_invariant (phon : String → String) (m : Metrics)
    (pred_name : String) :
    ∀ (l : List PCand) (acc : Option PCand × ℚ), 0 ≤ acc.2 →
      (0 < acc.2 → acc.1.isSome = true) →
      0 ≤ (l.foldl (fun acc r =>
          let s := (score_player phon m pred_name r).1
          if s > acc.2 then (some r, s) else acc) acc).2
      ∧ (0 < (l.foldl (fun acc r =>
          let s := (score_player phon m pred_name r).1
          if s > acc.2 then (some r, s) else acc) acc).2 →
        (l.foldl (fun acc r =>
          let s := (score_player phon m pred_name r).1
          if s > acc.2 then (some r, s) else acc) acc).1.isSome = true)
  | [], acc, h0, h1 => ⟨h0, h1⟩
  | r :: rs, acc, h0, h1 => by
    rw [List.foldl_cons]
    by_cases h : (score_player phon m pred_name r).1 > acc.2
    · rw [if_pos h]
      exact pickBest_invariant phon m pred_name rs _ (le_trans h0 (le_of_lt h))
        (fun _ => rfl)
    · rw [if_neg h]
      exact pickBest_invariant phon m pred_name rs acc h0 h1

theorem pickBest_snd_nonneg (phon : String → String) (m : Metrics)
    (pred_name : String) (l : List PCand) :
    0 ≤ (pickBest phon m pred_name l).2 :=
  (pickBest_invariant phon m pred_name l (none, 0) le_rfl
    (by intro h; cases h.not_le le_rfl)).1

theorem pickBest_pos_isSome (phon : String → String) (m : Metrics)
    (pred_name : String) (l : List PCand)
    (h : 0 < (pickBest phon m pred_name l).2) :
    (pickBest phon m pred_name l).1.isSome = true :=
  (pickBest_invariant phon m pred_name l (none, 0) le_rfl
    (by intro h; cases h.not_le le_rfl)).2 h

/-! Section: Range facts for the scorer -/

theorem score_pair_nonneg (m : Metrics) (a b : String) :
    0 ≤ score_pair m a b := by
  unfold score_pair
  by_cases h : normF a = "" ∨ normF b = ""
  · rw [if_pos h]
  · rw [if_neg h]
    exact le_max_left 0 _

theorem score_pair_le_one (m : Metrics) (a b : String) :
    score_pair m a b ≤ 1 := by
  unfold score_pair
  by_cases h : normF a = "" ∨ normF b = ""
  · rw [if_pos h]; norm_num
  · rw [if_neg h]
    exact max_le (by norm_num) (min_le_left _ _)

theorem scoreBonus_nonneg (phon : String → String) (pred_name : String)
    (c : PCand) : 0 ≤ scoreBonus phon pred_name c := by
  unfold scoreBonus
  dsimp only
  split_ifs <;> norm_num

theorem scoreBonus_le (phon : String → String) (pred_name : String)
    (c : PCand) : scoreBonus phon pred_name c ≤ 0.11 := by
  unfold scoreBonus
  dsimp only
  split_ifs <;> norm_num

/-! Section: Concrete instantiations used by witnesses and counterexamples -/

/-- Constant metric backend (every metric returns `q`). -/
def constMetrics (q : ℚ) : Metrics :=
  ⟨fun _ _ => q, fun _ _ => q, fun _ _ => q, fun _ _ => q⟩

/-- A one-row catalog entry on team `zzz`. -/
def mprCand0 : PCand :=
  ⟨"xyz", "XYZ", "fb1", "us1", "zzz", "", "", ["xyz"]⟩

/-! Section: C9 -/

/-- C9: normalization is idempotent — `normalize(normalize(x)) ==
normalize(x)` for every string `x` (proved for both normalizers of the
repository, `norm` of `init_fpl_elements.py` and `_norm` of
`link_understat_fbref.py`); both are total Lean functions (never fail) and
map `None` and the empty string to `""`. -/
theorem claim_C9_normalize_idempotent :
    (∀ s : String, normF (normF s) = normF s)
    ∧ (∀ s : String, normU (normU s) = normU s)
    ∧ normFAny none = "" ∧ normF "" = ""
    ∧ normUAny none = "" ∧ normU "" = "" :=
  ⟨normF_idem, normU_idem, by decide, by decide, by decide, by decide⟩

/-! Section: C7 -/

/-- C7 counterexample: for a label that is neither a short code nor an alias,
`normalize_team` does NOT fall back to `normalize(raw)` — both final branches
of the source return the stripped raw label unchanged.  `"Arsenal FC."`
resolves to `"Arsenal FC."`, not to `normalize("Arsenal FC.") =
"arsenal fc"`. -/
theorem claim_C7_counterexample :
    normalize_team (some "Arsenal FC.") [] = "Arsenal FC."
    ∧ normF "Arsenal FC." = "arsenal fc"
    ∧ ("Arsenal FC." : String) ≠ "arsenal fc" :=
  ⟨by decide, by decide, by decide⟩

/-- C7 (amended): `normalize_team` resolves known short codes (e.g. `"MUN"`
to `"Manchester United"`) and alias strings to a canonical label before any
fuzzy comparison runs; for every label that is neither a known short code
nor an alias it returns the whitespace-stripped raw label unchanged (not
`normalize(raw)`). -/
theorem claim_C7_team_resolution :
    (∀ ns : List String, normalize_team none ns = "")
    ∧ (∀ (raw : String) (ns : List String) (nm : String),
        List.lookup (pyUpperStr (pyStripStr raw)) SHORT_TO_NAME = some nm →
        normalize_team (some raw) ns = nm)
    ∧ (∀ (raw : String) (ns : List String) (al : String),
        List.lookup (pyUpperStr (pyStripStr raw)) SHORT_TO_NAME = none →
        List.lookup (normF (pyStripStr raw)) TEAM_ALIASES = some al →
        normalize_team (some raw) ns = al)
    ∧ (∀ (raw : String) (ns : List String),
        List.lookup (pyUpperStr (pyStripStr raw)) SHORT_TO_NAME = none →
        List.lookup (normF (pyStripStr raw)) TEAM_ALIASES = none →
        normalize_team (some raw) ns = pyStripStr raw)
    ∧ (∀ ns : List String,
        normalize_team (some "MUN") ns = "Manchester United") := by
  have hshort : ∀ (raw : String) (ns : List String) (nm : String),
      List.lookup (pyUpperStr (pyStripStr raw)) SHORT_TO_NAME = some nm →
      normalize_team (some raw) ns = nm := by
    intro raw ns nm h
    simp only [normalize_team]
    rw [h]
  have halias : ∀ (raw : String) (ns : List String) (al : String),
      List.lookup (pyUpperStr (pyStripStr raw)) SHORT_TO_NAME = none →
      List.lookup (normF (pyStripStr raw)) TEAM_ALIASES = some al →
      normalize_team (some raw) ns = al := by
    intro raw ns al h1 h2
    simp only [normalize_team]
    rw [h1, h2]
  have hfall : ∀ (raw : String) (ns : List String),
      List.lookup (pyUpperStr (pyStripStr raw)) SHORT_TO_NAME = none →
      List.lookup (normF (pyStripStr raw)) TEAM_ALIASES = none →
      normalize_team (some raw) ns = pyStripStr raw := by
    intro raw ns h1 h2
    simp only [normalize_team]
    rw [h1, h2]
    simp
  exact ⟨fun _ => rfl, hshort, halias, hfall,
    fun ns => hshort "MUN" ns _ (by decide)⟩

/-- C7 witness: the amended theorem applied at an alias label (`"spurs"`)
and an unknown label (`"Some Town"`). -/
theorem claim_C7_witness :
    List.lookup (normF (pyStripStr "spurs")) TEAM_ALIASES = some "Tottenham"
    ∧ normalize_team (some "spurs") [] = "Tottenham"
    ∧ normalize_team (some "Some Town") [] = pyStripStr "Some Town" :=
  ⟨by decide,
   claim_C7_team_resolution.2.2.1 "spurs" [] "Tottenham" (by decide)
     (by decide),
   claim_C7_team_resolution.2.2.2.1 "Some Town" [] (by decide) (by decide)⟩

/-! Section: C5 -/

/-- C5: `score_pair(a, b)` normalizes both inputs (scoring the pair is the
same as scoring the normalized pair), returns 0 when either normalized input
is empty, otherwise returns exactly the blend `0.35·tokenSet + 0.25·weighted
+ 0.20·tokenSort + 0.20·prefixWeighted` of the four `[0,1]`-scaled metrics,
and the result always lies in `[0,1]`. -/
theorem claim_C5_score_pair (m : Metrics) (a b : String)
    (hw : ∀ x y : String, 0 ≤ m.w x y ∧ m.w x y ≤ 1)
    (hts : ∀ x y : String, 0 ≤ m.ts x y ∧ m.ts x y ≤ 1)
    (htr : ∀ x y : String, 0 ≤ m.tr x y ∧ m.tr x y ≤ 1)
    (hjw : ∀ x y : String, 0 ≤ m.jw x y ∧ m.jw x y ≤ 1) :
    score_pair m a b = score_pair m (normF a) (normF b)
    ∧ (normF a = "" ∨ normF b = "" → score_pair m a b = 0)
    ∧ (normF a ≠ "" → normF b ≠ "" →
        score_pair m a b
          = 0.35 * m.ts (normF a) (normF b) + 0.25 * m.w (normF a) (normF b)
            + 0.20 * m.tr (normF a) (normF b)
            + 0.20 * m.jw (normF a) (normF b))
    ∧ 0 ≤ score_pair m a b ∧ score_pair m a b ≤ 1 := by
  refine ⟨?_, ?_, ?_, score_pair_nonneg m a b, score_pair_le_one m a b⟩
  · simp only [score_pair, normF_idem]
  · intro h
    unfold score_pair
    rw [if_pos h]
  · intro ha hb
    unfold score_pair
    rw [if_neg (by tauto)]
    obtain ⟨hts0, hts1⟩ := hts (normF a) (normF b)
    obtain ⟨hw0, hw1⟩ := hw (normF a) (normF b)
    obtain ⟨htr0, htr1⟩ := htr (normF a) (normF b)
    obtain ⟨hjw0, hjw1⟩ := hjw (normF a) (normF b)
    have h0 : (0:ℚ) ≤ 0.35 * m.ts (normF a) (normF b)
        + 0.25 * m.w (normF a) (normF b) + 0.20 * m.tr (normF a) (normF b)
        + 0.20 * m.jw (normF a) (normF b) := by linarith
    have h1 : 0.35 * m.ts (normF a) (normF b)
        + 0.25 * m.w (normF a) (normF b) + 0.20 * m.tr (normF a) (normF b)
        + 0.20 * m.jw (normF a) (normF b) ≤ 1 := by linarith
    rw [min_eq_right h1, max_eq_right h0]

/-- C5 witness: the theorem applied to the constant `1/2` backend on
`("Ab", "Cd")`: the hypotheses hold and the blend evaluates. -/
theorem claim_C5_witness :
    (∀ x y : String, 0 ≤ (constMetrics (1/2)).w x y
      ∧ (constMetrics (1/2)).w x y ≤ 1)
    ∧ (normF "Ab" ≠ "" → normF "Cd" ≠ "" →
        score_pair (constMetrics (1/2)) "Ab" "Cd"
          = 0.35 * (constMetrics (1/2)).ts (normF "Ab") (normF "Cd")
            + 0.25 * (constMetrics (1/2)).w (normF "Ab") (normF "Cd")
            + 0.20 * (constMetrics (1/2)).tr (normF "Ab") (normF "Cd")
            + 0.20 * (constMetrics (1/2)).jw (normF "Ab") (normF "Cd"))
    ∧ 0 ≤ score_pair (constMetrics (1/2)) "Ab" "Cd"
    ∧ score_pair (constMetrics (1/2)) "Ab" "Cd" ≤ 1 :=
  have hb : ∀ x y : String, 0 ≤ (constMetrics (1/2)).w x y
      ∧ (constMetrics (1/2)).w x y ≤ 1 :=
    fun _ _ => by constructor <;> norm_num [constMetrics]
  ⟨hb,
   (claim_C5_score_pair (constMetrics (1/2)) "Ab" "Cd" hb hb hb hb).2.2.1,
   (claim_C5_score_pair (constMetrics (1/2)) "Ab" "Cd" hb hb hb hb).2.2.2.1,
   (claim_C5_score_pair (constMetrics (1/2)) "Ab" "Cd" hb hb hb hb).2.2.2.2⟩

/-! Section: C6 -/

/-- C6: `score_player` returns the maximum of `score_pair` over all of the
candidate's variants with the bounded bonuses (+0.05 exact surname, +0.03
first-initial, +0.03 non-empty phonetic surname, hoisted in `scoreBonus`)
added on top of that maximum, the total capped at 1.0.  The source computes
`max over v of min(1, score_pair(v) + bonus)`; since the bonus does not
depend on the variant this equals `min(1, max over v of score_pair(v) +
bonus)`, which is what the claim states. -/
theorem claim_C6_score_identity (phon : String → String) (m : Metrics)
    (pred : String) (c : PCand) (hv : c.variants ≠ []) :
    (score_player phon m pred c).1
      = min 1 ((c.variants.map (fun v => score_pair m pred v)).foldr max 0
          + scoreBonus phon pred c)
    ∧ 0 ≤ scoreBonus phon pred c ∧ scoreBonus phon pred c ≤ 0.11
    ∧ (score_player phon m pred c).1 ≤ 1 := by
  have hEff : effVariants c = c.variants := by
    unfold effVariants
    rw [if_neg (by simpa using hv)]
  have h1 : (score_player phon m pred c).1
      = List.foldr (fun v acc =>
          max (min 1 (score_pair m pred v + scoreBonus phon pred c)) acc) 0
        (effVariants c) :=
    foldl_best_fst
      (fun v => min 1 (score_pair m pred v + scoreBonus phon pred c))
      (effVariants c) (0, "")
  rw [hEff] at h1
  obtain ⟨v, vs, hvv⟩ : ∃ v vs, c.variants = v :: vs := by
    cases hc : c.variants with
    | nil => exact absurd hc hv
    | cons v vs => exact ⟨v, vs, rfl⟩
  have h2 := foldr_scoremax (fun w => score_pair m pred w)
    (scoreBonus phon pred c) (scoreBonus_nonneg phon pred c)
    (fun w => score_pair_nonneg m pred w) v vs
  have hmain : (score_player phon m pred c).1
      = min 1 ((c.variants.map (fun w => score_pair m pred w)).foldr max 0
          + scoreBonus phon pred c) := by
    rw [h1, hvv, h2, List.foldr_map]
  exact ⟨hmain, scoreBonus_nonneg phon pred c, scoreBonus_le phon pred c,
    by rw [hmain]; exact min_le_left _ _⟩

/-- C6 witness: the theorem applied to a concrete candidate with one
variant and the constant `9/10` backend. -/
theorem claim_C6_witness :
    (mprCand0.variants ≠ [])
    ∧ (score_player phonNone (constMetrics (9/10)) "abc" mprCand0).1
        = min 1 ((mprCand0.variants.map
              (fun v => score_pair (constMetrics (9/10)) "abc" v)).foldr max 0
            + scoreBonus phonNone "abc" mprCand0)
    ∧ (score_player phonNone (constMetrics (9/10)) "abc" mprCand0).1 ≤ 1 :=
  ⟨by decide,
   (claim_C6_score_identity phonNone (constMetrics (9/10)) "abc" mprCand0
     (by decide)).1,
   (claim_C6_score_identity phonNone (constMetrics (9/10)) "abc" mprCand0
     (by decide)).2.2.2⟩

/-! Section: C1 -/

/-- Concrete inputs for the link-matcher witnesses. -/
def simZero : String → String → ℚ := fun _ _ => 0

def wSalah : UTarget := ⟨"Mohamed Salah", ""⟩

def cSalah : FBCand := ⟨"f1", "Mohamed Salah", none⟩

def wWilson : UTarget := ⟨"James Wilson", "DEF"⟩

def cWilsonGK : FBCand := ⟨"gk", "James Wilson", some "GK"⟩

def cWilsonDF : FBCand := ⟨"df", "James Wilson", some "DF"⟩

/-- C1: on a non-empty team bucket the matcher first collects the candidates
whose normalized name equals the target's normalized name.  Exactly one such
candidate is accepted with `method = exact_norm_same_team`, `confidence =
100.0`.  With two or more, the candidate whose position prefix matches the
target's position prefix is preferred (the first such in stable input
order); if the target has no position, or no candidate's position matches,
the first exact match in stable input order is taken; either way the result
is accepted with `method = exact_norm_same_team_tiebreak`, `confidence =
99.0`. -/
theorem claim_C1_exact_and_tiebreak :
    (∀ (sim : String → String → ℚ) (strict fuzzy : ℚ) (t : UTarget)
        (c0 : FBCand) (rest : List FBCand) (e : FBCand),
      (c0 :: rest).filter
          (fun c => normU c.fbref_name == normU t.player_name) = [e] →
      linkMatch sim strict fuzzy t (c0 :: rest)
        = .accepted e.fbref_player_id e.fbref_name "exact_norm_same_team" 100)
    ∧ (∀ (sim : String → String → ℚ) (strict fuzzy : ℚ) (t : UTarget)
        (c0 : FBCand) (rest : List FBCand) (e1 e2 : FBCand)
        (es : List FBCand),
      (c0 :: rest).filter
          (fun c => normU c.fbref_name == normU t.player_name)
        = e1 :: e2 :: es →
      ((pyLowerStr t.position).data.take 1 = [] →
        linkMatch sim strict fuzzy t (c0 :: rest)
          = .accepted e1.fbref_player_id e1.fbref_name
              "exact_norm_same_team_tiebreak" 99)
      ∧ (∀ cm : FBCand, (pyLowerStr t.position).data.take 1 ≠ [] →
          (e1 :: e2 :: es).find? (fun c =>
              (pyLowerStr (c.fbref_pos.getD "")).data.take
                  ((pyLowerStr t.position).data.take 1).length
                == (pyLowerStr t.position).data.take 1) = some cm →
          linkMatch sim strict fuzzy t (c0 :: rest)
            = .accepted cm.fbref_player_id cm.fbref_name
                "exact_norm_same_team_tiebreak" 99)
      ∧ ((pyLowerStr t.position).data.take 1 ≠ [] →
          (e1 :: e2 :: es).find? (fun c =>
              (pyLowerStr (c.fbref_pos.getD "")).data.take
                  ((pyLowerStr t.position).data.take 1).length
                == (pyLowerStr t.position).data.take 1) = none →
          linkMatch sim strict fuzzy t (c0 :: rest)
            = .accepted e1.fbref_player_id e1.fbref_name
                "exact_norm_same_team_tiebreak" 99)) := by
  constructor
  · intro sim strict fuzzy t c0 rest e hex
    show linkAfterBlock sim strict fuzzy t c0 rest
        ((c0 :: rest).filter
          (fun c => normU c.fbref_name == normU t.player_name)) = _
    rw [hex]
    rfl
  · intro sim strict fuzzy t c0 rest e1 e2 es hex
    have hbase : linkMatch sim strict fuzzy t (c0 :: rest)
        = linkAfterBlock sim strict fuzzy t c0 rest (e1 :: e2 :: es) := by
      show linkAfterBlock sim strict fuzzy t c0 rest
          ((c0 :: rest).filter
            (fun c => normU c.fbref_name == normU t.player_name)) = _
      rw [hex]
    refine ⟨?_, ?_, ?_⟩
    · intro hpos
      rw [hbase]
      simp [linkAfterBlock, hpos]
    · intro cm hpos hfind
      rw [hbase]
      simp only [linkAfterBlock]
      rw [if_neg (by simpa [List.isEmpty_iff] using hpos)]
      rw [hfind]
      rfl
    · intro hpos hfind
      rw [hbase]
      simp only [linkAfterBlock]
      rw [if_neg (by simpa [List.isEmpty_iff] using hpos)]
      rw [hfind]
      rfl

/-- C1 witness: the exact branch on the spec's `"Mohamed Salah"` example and
the tie-break branch on the spec's `"James Wilson"` GK/DEF example (the DEF
candidate is chosen for a DEF target). -/
theorem claim_C1_witness :
    ([cSalah].filter
        (fun c => normU c.fbref_name == normU wSalah.player_name) = [cSalah])
    ∧ linkMatch simZero 97 90 wSalah [cSalah]
        = .accepted cSalah.fbref_player_id cSalah.fbref_name
            "exact_norm_same_team" 100
    ∧ ([cWilsonGK, cWilsonDF].filter
        (fun c => normU c.fbref_name == normU wWilson.player_name)
          = [cWilsonGK, cWilsonDF])
    ∧ linkMatch simZero 97 90 wWilson [cWilsonGK, cWilsonDF]
        = .accepted cWilsonDF.fbref_player_id cWilsonDF.fbref_name
            "exact_norm_same_team_tiebreak" 99 :=
  ⟨by decide,
   claim_C1_exact_and_tiebreak.1 simZero 97 90 wSalah cSalah [] cSalah
     (by decide),
   by decide,
   (claim_C1_exact_and_tiebreak.2 simZero 97 90 wWilson cWilsonGK
       [cWilsonDF] cWilsonGK cWilsonDF [] (by decide)).2.1 cWilsonDF
     (by decide) (by decide)⟩

/-! Section: C2 -/

def sim87 : String → String → ℚ := fun _ _ => 87

def sim91 : String → String → ℚ := fun _ _ => 91

def linkTargetA : UTarget := ⟨"aaa", ""⟩

def linkCandB : FBCand := ⟨"f1", "bbb", none⟩

/-- C2 counterexample: the claimed default `teamBlockThreshold` is 0.84, but
`build_player_xref(engine, strict=97, fuzzy=90)` defaults the same-team
acceptance threshold to 90 on the 0..100 scale (0.90).  A bucket with no
exact match whose best fuzzy score is 87 (unit score 0.87 ≥ 0.84) is
rejected as `low_score` under the code's defaults, where the claim as stated
requires acceptance. -/
theorem claim_C2_counterexample :
    linkMatch sim87 link_strict_default link_fuzzy_default ⟨"abcdef", ""⟩
        [⟨"f1", "abcdxx", none⟩]
      = .unmatched "low_score" (some ("abcdxx", 87))
    ∧ (84 : ℚ) ≤ 87 ∧ (87 : ℚ) < 90 :=
  ⟨by with_unfolding_all decide, by norm_num, by norm_num⟩

/-- C2 (amended): for a non-empty team bucket with no exact normalized-name
match (and thresholds configured with `fuzzy ≤ strict`, as the defaults
are), the matcher computes the best fuzzy score over the bucket and accepts
exactly when `score ≥ fuzzy`, with `method = fuzzy_strict_same_team` when
`score ≥ strict` and `fuzzy_same_team` otherwise, and `confidence = score`
(the 0..100-scale score, i.e. the unit score times 100); the default
thresholds are `strict = 97` and `fuzzy = 90` (0.90, not the 0.84 stated in
the claim). -/
theorem claim_C2_fuzzy_same_team (sim : String → String → ℚ)
    (strict fuzzy : ℚ) (t : UTarget) (c0 : FBCand) (rest : List FBCand)
    (hsf : fuzzy ≤ strict)
    (hex : (c0 :: rest).filter
      (fun c => normU c.fbref_name == normU t.player_name) = []) :
    (fuzzy ≤ (linkBest sim (normU t.player_name) c0 rest).2 →
      linkMatch sim strict fuzzy t (c0 :: rest)
        = .accepted
            (linkBest sim (normU t.player_name) c0 rest).1.fbref_player_id
            (linkBest sim (normU t.player_name) c0 rest).1.fbref_name
            (if strict ≤ (linkBest sim (normU t.player_name) c0 rest).2
              then "fuzzy_strict_same_team" else "fuzzy_same_team")
            (linkBest sim (normU t.player_name) c0 rest).2)
    ∧ ((linkBest sim (normU t.player_name) c0 rest).2 < fuzzy →
        linkMatch sim strict fuzzy t (c0 :: rest)
          = .unmatched "low_score"
              (some ((linkBest sim (normU t.player_name) c0 rest).1.fbref_name,
                (linkBest sim (normU t.player_name) c0 rest).2)))
    ∧ link_strict_default = 97 ∧ link_fuzzy_default = 90 := by
  have hbase : linkMatch sim strict fuzzy t (c0 :: rest)
      = linkAfterBlock sim strict fuzzy t c0 rest [] := by
    show linkAfterBlock sim strict fuzzy t c0 rest
        ((c0 :: rest).filter
          (fun c => normU c.fbref_name == normU t.player_name)) = _
    rw [hex]
  refine ⟨?_, ?_, rfl, rfl⟩
  · intro hf
    rw [hbase]
    simp only [linkAfterBlock]
    by_cases hs : strict ≤ (linkBest sim (normU t.player_name) c0 rest).2
    · rw [if_pos hs, if_pos hs]
    · rw [if_neg hs, if_pos hf, if_neg hs]
  · intro hlt
    rw [hbase]
    simp only [linkAfterBlock]
    have hs : ¬ strict ≤ (linkBest sim (normU t.player_name) c0 rest).2 :=
      not_le.mpr (lt_of_lt_of_le hlt hsf)
    rw [if_neg hs, if_neg (not_le.mpr hlt)]

/-- C2 witness: the amended theorem applied to a one-candidate bucket with a
constant score of 91: no exact match, 90 ≤ 91, so the target is accepted
with the non-strict method (91 < 97) and confidence 91. -/
theorem claim_C2_witness :
    ((90 : ℚ) ≤ 97)
    ∧ ([linkCandB].filter
        (fun c => normU c.fbref_name == normU linkTargetA.player_name) = [])
    ∧ ((90 : ℚ) ≤ (linkBest sim91 (normU linkTargetA.player_name)
        linkCandB []).2)
    ∧ linkMatch sim91 97 90 linkTargetA [linkCandB]
        = .accepted
            (linkBest sim91 (normU linkTargetA.player_name)
              linkCandB []).1.fbref_player_id
            (linkBest sim91 (normU linkTargetA.player_name)
              linkCandB []).1.fbref_name
            (if (97 : ℚ) ≤ (linkBest sim91 (normU linkTargetA.player_name)
                linkCandB []).2
              then "fuzzy_strict_same_team" else "fuzzy_same_team")
            (linkBest sim91 (normU linkTargetA.player_name) linkCandB []).2 :=
  ⟨by norm_num, by decide, by with_unfolding_all decide,
   (claim_C2_fuzzy_same_team sim91 97 90 linkTargetA linkCandB []
     (by norm_num) (by decide)).1 (by with_unfolding_all decide)⟩

/-! Section: C4 -/

theorem length_filter_add_length_filter_not {α : Type} (p : α → Bool) :
    ∀ l : List α,
      (l.filter p).length + (l.filter (fun a => !p a)).length = l.length
  | [] => rfl
  | a :: l => by
    have ih := length_filter_add_length_filter_not p l
    by_cases h : p a = true
    · rw [List.filter_cons, List.filter_cons, if_pos h, if_neg (by simp [h])]
      simp only [List.length_cons]
      omega
    · have h' : p a = false := Bool.eq_false_iff.mpr h
      rw [List.filter_cons, List.filter_cons, if_neg h, if_pos (by simp [h'])]
      simp only [List.length_cons]
      omega

/-- C4: every target yields exactly one outcome — the accepted rows and the
unmatched diagnostics of `build_player_xref` together account for every
target exactly once; an empty team bucket yields the single
`reason = no_team_candidates` record, and a non-empty bucket that is not
accepted yields the single `reason = low_score` record carrying the best
candidate and its (below-threshold) score.  The embedding is a total
function, i.e. no input raises an error. -/
theorem claim_C4_exactly_one_outcome (sim : String → String → ℚ)
    (strict fuzzy : ℚ) (targets : List (UTarget × List FBCand)) :
    ((linkProcess sim strict fuzzy targets).1.length
      + (linkProcess sim strict fuzzy targets).2.length = targets.length)
    ∧ (∀ t : UTarget,
        linkMatch sim strict fuzzy t [] = .unmatched "no_team_candidates" none)
    ∧ (∀ (t : UTarget) (c0 : FBCand) (rest : List FBCand)
        (reason : String) (best : Option (String × ℚ)),
        linkMatch sim strict fuzzy t (c0 :: rest) = .unmatched reason best →
        reason = "low_score"
        ∧ best = some
            ((linkBest sim (normU t.player_name) c0 rest).1.fbref_name,
              (linkBest sim (normU t.player_name) c0 rest).2)
        ∧ (linkBest sim (normU t.player_name) c0 rest).2 < fuzzy) := by
  refine ⟨?_, fun t => rfl, ?_⟩
  · unfold linkProcess
    rw [List.partition_eq_filter_filter]
    dsimp only
    simp only [Function.comp_def]
    rw [length_filter_add_length_filter_not, List.length_map]
  · intro t c0 rest reason best h
    have hb : linkAfterBlock sim strict fuzzy t c0 rest
        ((c0 :: rest).filter
          (fun c => normU c.fbref_name == normU t.player_name))
        = .unmatched reason best := h
    cases hex : (c0 :: rest).filter
        (fun c => normU c.fbref_name == normU t.player_name) with
    | nil =>
      rw [hex] at hb
      simp only [linkAfterBlock] at hb
      by_cases h1 : (linkBest sim (normU t.player_name) c0 rest).2 ≥ strict
      · rw [if_pos h1] at hb
        exact absurd hb (by simp)
      · rw [if_neg h1] at hb
        by_cases h2 : (linkBest sim (normU t.player_name) c0 rest).2 ≥ fuzzy
        · rw [if_pos h2] at hb
          exact absurd hb (by simp)
        · rw [if_neg h2] at hb
          injection hb with hr hbb
          exact ⟨hr.symm, hbb.symm, not_le.mp h2⟩
    | cons e es =>
      cases es with
      | nil =>
        rw [hex] at hb
        exact absurd hb (by simp [linkAfterBlock])
      | cons e2 es2 =>
        rw [hex] at hb
        simp only [linkAfterBlock] at hb
        exact absurd hb (by simp)

/-- C4 witness: the low-score conjunct applied to the concrete one-candidate
bucket of the C2 counterexample, plus the empty-bucket case. -/
theorem claim_C4_witness :
    linkMatch sim87 97 90 ⟨"abcdef", ""⟩ [⟨"f1", "abcdxx", none⟩]
        = .unmatched "low_score" (some ("abcdxx", 87))
    ∧ some ("abcdxx", (87 : ℚ)) = some
        ((linkBest sim87 (normU "abcdef") ⟨"f1", "abcdxx", none⟩
          []).1.fbref_name,
          (linkBest sim87 (normU "abcdef") ⟨"f1", "abcdxx", none⟩ []).2)
    ∧ (linkBest sim87 (normU "abcdef") ⟨"f1", "abcdxx", none⟩ []).2 < 90
    ∧ linkMatch sim87 97 90 ⟨"abcdef", ""⟩ []
        = .unmatched "no_team_candidates" none :=
  have happ := (claim_C4_exactly_one_outcome sim87 97 90 []).2.2
    ⟨"abcdef", ""⟩ ⟨"f1", "abcdxx", none⟩ [] "low_score"
    (some ("abcdxx", 87)) (by with_unfolding_all decide)
  ⟨by with_unfolding_all decide, happ.2.1, happ.2.2,
   (claim_C4_exactly_one_outcome sim87 97 90 []).2.1 ⟨"abcdef", ""⟩⟩

/-! Section: C3 -/

theorem mpr_step1_global (phon : String → String) (m : Metrics)
    (pred team : String) (cat : List PCand) (tt gt : ℚ)
    (h : (if normF team = "" then []
          else cat.filter (fun r => r.norm_team == normF team)) = []
        ∨ (pickBest phon m pred (if normF team = "" then []
          else cat.filter (fun r => r.norm_team == normF team))).2 < tt) :
    match_player_row phon m pred team cat tt gt
      = mprGlobal phon m pred cat gt := by
  simp only [match_player_row]
  by_cases hempty : (if normF team = "" then []
      else cat.filter (fun r => r.norm_team == normF team)).isEmpty
  · rw [if_pos hempty]
  · rw [if_neg hempty]
    have hlt : (pickBest phon m pred (if normF team = "" then []
        else cat.filter (fun r => r.norm_team == normF team))).2 < tt := by
      rcases h with h | h
      · exact absurd (by rw [h]; rfl) hempty
      · exact h
    cases hp : (pickBest phon m pred (if normF team = "" then []
        else cat.filter (fun r => r.norm_team == normF team))).1 with
    | none => simp only [hp]
    | some r =>
      simp only [hp]
      rw [if_neg (not_le.mpr hlt)]

/-- C3 counterexample: the global fallback accepts with `confidence = score`
(the raw 0..1 score), NOT `confidence = score·100` as the claim states: a
global acceptance with best score 0.9 stores confidence 0.9 (where the claim
requires 90.0). -/
theorem claim_C3_counterexample :
    match_player_row phonNone (constMetrics (9/10)) "abc" "t" [mprCand0]
        mpr_team_threshold_default mpr_global_threshold_default
      = ⟨"fb1", "us1", "xyz", "XYZ", "global", 9/10⟩
    ∧ ((9/10 : ℚ) ≠ (9/10) * 100) :=
  ⟨by with_unfolding_all decide, by norm_num⟩

/-- C3 (amended): for every target for which step 1 produced no acceptance
(empty team-blocked bucket, or best in-bucket score below `team_threshold`),
the matcher computes the best fuzzy score over the full unblocked catalog
and accepts exactly when that score reaches `global_threshold` (default
0.88), with `method = "global"` and `confidence = score` (the raw 0..1
score is stored unscaled, not multiplied by 100). -/
theorem claim_C3_global_fallback (phon : String → String) (m : Metrics)
    (pred team : String) (cat : List PCand) (tt gt : ℚ)
    (hgt : 0 < gt)
    (h1 : (if normF team = "" then []
        else cat.filter (fun r => r.norm_team == normF team)) = []
      ∨ (pickBest phon m pred (if normF team = "" then []
        else cat.filter (fun r => r.norm_team == normF team))).2 < tt) :
    (gt ≤ (pickBest phon m pred cat).2 →
      ∃ r : PCand, (pickBest phon m pred cat).1 = some r
        ∧ match_player_row phon m pred team cat tt gt
          = ⟨r.fbref_id, r.understat_id, r.player_name, r.catalog_team_name,
              "global", (pickBest phon m pred cat).2⟩)
    ∧ ((pickBest phon m pred cat).2 < gt →
        match_player_row phon m pred team cat tt gt = mprNone)
    ∧ mpr_global_threshold_default = 0.88 := by
  have hstep := mpr_step1_global phon m pred team cat tt gt h1
  refine ⟨?_, ?_, rfl⟩
  · intro hge
    have hpos : 0 < (pickBest phon m pred cat).2 := lt_of_lt_of_le hgt hge
    have hsome := pickBest_pos_isSome phon m pred cat hpos
    cases hp : (pickBest phon m pred cat).1 with
    | none => rw [hp] at hsome; cases hsome
    | some r =>
      refine ⟨r, rfl, ?_⟩
      rw [hstep]
      simp only [mprGlobal, hp]
      rw [if_pos hge]
  · intro hlt
    rw [hstep]
    simp only [mprGlobal]
    cases hp : (pickBest phon m pred cat).1 with
    | none => simp only [hp]
    | some r =>
      simp only [hp]
      rw [if_neg (not_le.mpr hlt)]

/-- C3 witness: the amended theorem applied to a one-row catalog whose team
does not match the target's team (empty bucket), constant 0.9 backend:
0.9 ≥ 0.88, so the target is accepted globally with confidence 0.9. -/
theorem claim_C3_witness :
    ((0 : ℚ) < 0.88)
    ∧ ((if normF "t" = "" then []
        else [mprCand0].filter (fun r => r.norm_team == normF "t")) = [])
    ∧ ((0.88 : ℚ)
        ≤ (pickBest phonNone (constMetrics (9/10)) "abc" [mprCand0]).2)
    ∧ ∃ r : PCand,
        (pickBest phonNone (constMetrics (9/10)) "abc" [mprCand0]).1 = some r
        ∧ match_player_row phonNone (constMetrics (9/10)) "abc" "t"
            [mprCand0] 0.84 0.88
          = ⟨r.fbref_id, r.understat_id, r.player_name, r.catalog_team_name,
              "global",
              (pickBest phonNone (constMetrics (9/10)) "abc" [mprCand0]).2⟩ :=
  ⟨by norm_num, by with_unfolding_all decide, by with_unfolding_all decide,
   (claim_C3_global_fallback phonNone (constMetrics (9/10)) "abc" "t"
       [mprCand0] 0.84 0.88 (by norm_num)
       (Or.inl (by with_unfolding_all decide))).1
     (by with_unfolding_all decide)⟩

/-! Section: C10 -/

theorem mprGlobal_accepted_iff (phon : String → String) (m : Metrics)
    (pred : String) (cat : List PCand) (gt : ℚ) :
    (mprGlobal phon m pred cat gt).method ≠ "none"
      ↔ ((pickBest phon m pred cat).1.isSome = true
          ∧ gt ≤ (pickBest phon m pred cat).2) := by
  simp only [mprGlobal]
  cases hp : (pickBest phon m pred cat).1 with
  | none => simp [mprNone]
  | some r =>
    by_cases hge : (pickBest phon m pred cat).2 ≥ gt
    · simp [hge]
    · simp [mprNone, hge]

theorem mpr_accepted_iff (phon : String → String) (m : Metrics)
    (pred team : String) (cat : List PCand) (tt gt : ℚ) :
    (match_player_row phon m pred team cat tt gt).method ≠ "none"
      ↔ (((if normF team = "" then []
            else cat.filter (fun r => r.norm_team == normF team)).isEmpty
              = false)
          ∧ (pickBest phon m pred (if normF team = "" then []
              else cat.filter
                (fun r => r.norm_team == normF team))).1.isSome = true
          ∧ tt ≤ (pickBest phon m pred (if normF team = "" then []
              else cat.filter (fun r => r.norm_team == normF team))).2)
        ∨ ((pickBest phon m pred cat).1.isSome = true
            ∧ gt ≤ (pickBest phon m pred cat).2) := by
  simp only [match_player_row]
  by_cases hempty : (if normF team = "" then []
      else cat.filter (fun r => r.norm_team == normF team)).isEmpty
  · rw [if_pos hempty, mprGlobal_accepted_iff]
    constructor
    · exact Or.inr
    · rintro (⟨hne, -, -⟩ | hg)
      · rw [hempty] at hne; cases hne
      · exact hg
  · rw [if_neg hempty]
    cases hp : (pickBest phon m pred (if normF team = "" then []
        else cat.filter (fun r => r.norm_team == normF team))).1 with
    | none =>
      dsimp only
      rw [mprGlobal_accepted_iff]
      constructor
      · exact Or.inr
      · rintro (⟨-, hsome, -⟩ | hg)
        · exact absurd hsome (by simp)
        · exact hg
    | some r =>
      dsimp only
      by_cases hge : (pickBest phon m pred (if normF team = "" then []
          else cat.filter (fun r => r.norm_team == normF team))).2 ≥ tt
      · rw [if_pos hge]
        constructor
        · intro _
          refine Or.inl ⟨Bool.eq_false_iff.mpr hempty, ?_, hge⟩
          simp
        · intro _
          simp
      · rw [if_neg hge]
        rw [mprGlobal_accepted_iff]
        constructor
        · exact Or.inr
        · rintro (⟨-, -, hge'⟩ | hg)
          · exact absurd hge' hge
          · exact hg

theorem mpr_accept_antitone (phon : String → String) (m : Metrics)
    (pred team : String) (cat : List PCand) {tt tt' gt gt' : ℚ}
    (htt : tt ≤ tt') (hgt : gt ≤ gt')
    (h : (match_player_row phon m pred team cat tt' gt').method ≠ "none") :
    (match_player_row phon m pred team cat tt gt).method ≠ "none" := by
  rw [mpr_accepted_iff] at h ⊢
  rcases h with ⟨h1, h2, h3⟩ | ⟨h1, h2⟩
  · exact Or.inl ⟨h1, h2, le_trans htt h3⟩
  · exact Or.inr ⟨h1, le_trans hgt h2⟩

theorem link_accepted_cons_iff (sim : String → String → ℚ)
    (strict fuzzy : ℚ) (t : UTarget) (c0 : FBCand) (rest : List FBCand) :
    linkIsAccepted (linkMatch sim strict fuzzy t (c0 :: rest)) = true
      ↔ ((c0 :: rest).filter
            (fun c => normU c.fbref_name == normU t.player_name) ≠ []
          ∨ strict ≤ (linkBest sim (normU t.player_name) c0 rest).2
          ∨ fuzzy ≤ (linkBest sim (normU t.player_name) c0 rest).2) := by
  have hb : linkMatch sim strict fuzzy t (c0 :: rest)
      = linkAfterBlock sim strict fuzzy t c0 rest
          ((c0 :: rest).filter
            (fun c => normU c.fbref_name == normU t.player_name)) := rfl
  rw [hb]
  cases hex : (c0 :: rest).filter
      (fun c => normU c.fbref_name == normU t.player_name) with
  | nil =>
    simp only [linkAfterBlock, ne_eq, not_true_eq_false, false_or]
    by_cases h1 : (linkBest sim (normU t.player_name) c0 rest).2 ≥ strict
    · rw [if_pos h1]
      simp [linkIsAccepted, h1]
    · rw [if_neg h1]
      by_cases h2 : (linkBest sim (normU t.player_name) c0 rest).2 ≥ fuzzy
      · rw [if_pos h2]
        simp [linkIsAccepted, h2]
      · rw [if_neg h2]
        simp [linkIsAccepted, h1, h2]
  | cons e es =>
    cases es with
    | nil => simp [linkAfterBlock, linkIsAccepted]
    | cons e2 es2 => simp [linkAfterBlock, linkIsAccepted]

theorem link_accept_antitone (sim : String → String → ℚ) (t : UTarget)
    (bucket : List FBCand) {s s' f f' : ℚ} (hs : s ≤ s') (hf : f ≤ f')
    (h : linkIsAccepted (linkMatch sim s' f' t bucket) = true) :
    linkIsAccepted (linkMatch sim s f t bucket) = true := by
  cases bucket with
  | nil => simp [linkMatch, linkIsAccepted] at h
  | cons c0 rest =>
    rw [link_accepted_cons_iff] at h ⊢
    rcases h with h | h | h
    · exact Or.inl h
    · exact Or.inr (Or.inl (le_trans hs h))
    · exact Or.inr (Or.inr (le_trans hf h))

/-- Number of targets accepted by `match_player_row` (method other than
`"none"`) over a list of `(pred_name, team_name)` targets. -/
def mprAcceptCount (phon : String → String) (m : Metrics)
    (tgts : List (String × String)) (cat : List PCand) (tt gt : ℚ) : Nat :=
  (tgts.map (fun p => match_player_row phon m p.1 p.2 cat tt gt)).countP
    (fun r => !(r.method == "none"))

/-- Number of targets accepted by `build_player_xref` over a list of
`(target, bucket)` pairs. -/
def linkAcceptCount (sim : String → String → ℚ) (strict fuzzy : ℚ)
    (tgts : List (UTarget × List FBCand)) : Nat :=
  (tgts.map (fun p => linkMatch sim strict fuzzy p.1 p.2)).countP
    linkIsAccepted

theorem countP_map_le {α β : Type} (p : β → Bool) (f g : α → β) :
    ∀ l : List α, (∀ a ∈ l, p (g a) = true → p (f a) = true) →
      (l.map g).countP p ≤ (l.map f).countP p
  | [], _ => le_rfl
  | a :: l, h => by
    simp only [List.map_cons, List.countP_cons]
    have ih := countP_map_le p f g l
      (fun b hb => h b (List.mem_cons_of_mem _ hb))
    by_cases hg : p (g a) = true
    · rw [if_pos hg, if_pos (h a (List.mem_cons_self _ _) hg)]
      omega
    · rw [if_neg hg]
      by_cases hf : p (f a) = true
      · rw [if_pos hf]; omega
      · rw [if_neg hf]; omega

/-- C10: for fixed inputs, raising any one of the acceptance thresholds
never increases the number of accepted targets — proved for both matchers:
`match_player_row` is antitone in `team_threshold` and `global_threshold`,
and `build_player_xref` is antitone in `strict` and `fuzzy` (raising
`strict` alone can only re-label or reject, never newly accept). -/
theorem claim_C10_threshold_monotonicity :
    (∀ (phon : String → String) (m : Metrics) (cat : List PCand)
        (tgts : List (String × String)) (tt tt' gt gt' : ℚ),
      tt ≤ tt' → gt ≤ gt' →
      mprAcceptCount phon m tgts cat tt' gt'
        ≤ mprAcceptCount phon m tgts cat tt gt)
    ∧ (∀ (sim : String → String → ℚ) (tgts : List (UTarget × List FBCand))
        (s s' f f' : ℚ),
      s ≤ s' → f ≤ f' →
      linkAcceptCount sim s' f' tgts ≤ linkAcceptCount sim s f tgts) := by
  constructor
  · intro phon m cat tgts tt tt' gt gt' htt hgt
    unfold mprAcceptCount
    apply countP_map_le
    intro p _ hacc
    have h' : (match_player_row phon m p.1 p.2 cat tt' gt').method ≠ "none" :=
      by simpa using hacc
    simpa using mpr_accept_antitone phon m p.1 p.2 cat htt hgt h'
  · intro sim tgts s s' f f' hs hf
    unfold linkAcceptCount
    apply countP_map_le
    intro p _ hacc
    exact link_accept_antitone sim p.1 p.2 hs hf hacc

/-- C10 witness: the theorem applied to concrete one-target runs with both
thresholds raised for each matcher. -/
theorem claim_C10_witness :
    ((0.84 : ℚ) ≤ 0.95) ∧ ((0.88 : ℚ) ≤ 0.95)
    ∧ mprAcceptCount phonNone (constMetrics (9/10)) [("abc", "t")]
        [mprCand0] 0.95 0.95
      ≤ mprAcceptCount phonNone (constMetrics (9/10)) [("abc", "t")]
        [mprCand0] 0.84 0.88
    ∧ ((97 : ℚ) ≤ 99) ∧ ((90 : ℚ) ≤ 95)
    ∧ linkAcceptCount sim91 99 95 [(linkTargetA, [linkCandB])]
      ≤ linkAcceptCount sim91 97 90 [(linkTargetA, [linkCandB])] :=
  ⟨by norm_num, by norm_num,
   claim_C10_threshold_monotonicity.1 phonNone (constMetrics (9/10))
     [mprCand0] [("abc", "t")] 0.84 0.95 0.88 0.95 (by norm_num)
     (by norm_num),
   by norm_num, by norm_num,
   claim_C10_threshold_monotonicity.2 sim91 [(linkTargetA, [linkCandB])]
     97 99 90 95 (by norm_num) (by norm_num)⟩

/-! Section: C8 -/

theorem mem_insertSorted {x a : String} :
    ∀ l : List String, a ∈ insertSorted x l ↔ a = x ∨ a ∈ l
  | [] => by simp [insertSorted]
  | y :: ys => by
    unfold insertSorted
    by_cases h : pyStrLe x y = true
    · rw [if_pos h]
      simp
    · rw [if_neg h]
      rw [List.mem_cons, mem_insertSorted ys, List.mem_cons]
      tauto

theorem mem_insertionSort {a : String} :
    ∀ l : List String, a ∈ insertionSort l ↔ a ∈ l
  | [] => Iff.rfl
  | x :: xs => by
    unfold insertionSort
    rw [mem_insertSorted, mem_insertionSort xs, List.mem_cons]

theorem mem_pySortedSet {a : String} (l : List String) :
    a ∈ pySortedSet l ↔ a ∈ l := by
  unfold pySortedSet
  rw [mem_insertionSort, List.mem_dedup]

theorem string_eq_empty_iff (s : String) : s = "" ↔ s.data = [] := by
  cases s with
  | mk l =>
    cases l with
    | nil => exact ⟨fun _ => rfl, fun _ => rfl⟩
    | cons c cs =>
      constructor
      · intro h
        exact absurd (congrArg String.data h) (by simp)
      · intro h
        exact absurd h (by simp)

theorem string_ne_empty_iff (s : String) : s ≠ "" ↔ s.data ≠ [] :=
  not_congr (string_eq_empty_iff s)

theorem mem_tokens_ne_empty {name t : String} (h : t ∈ tokens name) :
    t ≠ "" := by
  unfold tokens at h
  have := (List.mem_filter.mp h).2
  simpa using this

theorem mem_nv_ts_nc_tokens {name t : String} (h : t ∈ nv_ts_nc name) :
    t ∈ tokens name := by
  unfold nv_ts_nc prune_connectors at h
  exact (List.mem_filter.mp h).1

theorem joinSpace_ne_empty {t : String} (ht : t ≠ "") :
    ∀ rest : List String, joinSpace (t :: rest) ≠ ""
  | [] => ht
  | y :: xs => by
    rw [joinSpace, string_ne_empty_iff]
    have hd : (t ++ " " ++ joinSpace (y :: xs)).data
        = t.data ++ " ".data ++ (joinSpace (y :: xs)).data := by
      rw [String.data_append, String.data_append]
    rw [hd]
    simp [(string_ne_empty_iff t).mp ht]

theorem nv_joined_ne_empty {name : String} (hbase : normF name ≠ "") :
    nv_joined name ≠ "" := by
  unfold nv_joined
  cases hts : nv_ts_nc name with
  | nil => exact hbase
  | cons t rest =>
    have htm : t ∈ nv_ts_nc name := by rw [hts]; exact List.mem_cons_self t rest
    have ht : t ≠ "" := mem_tokens_ne_empty (mem_nv_ts_nc_tokens htm)
    exact joinSpace_ne_empty ht rest

theorem mem_name_variants_of {name x : String} (hbase : normF name ≠ "")
    (hx : x ≠ "")
    (hmem : x ∈ nv_joined name ::
      ((if (nv_fl name).1 ≠ "" ∨ (nv_fl name).2 ≠ "" then
          [strCatStrip (nv_fl name).1 (nv_fl name).2,
           (if (nv_fl name).1 ≠ "" then
              strCatStrip (⟨(nv_fl name).1.data.take 1⟩) (nv_fl name).2
            else (nv_fl name).2),
           (nv_fl name).2,
           strCatStrip (nv_fl name).2 (nv_fl name).1]
        else [])
        ++ hyphen_splits (nv_joined name)
        ++ (expand_given (strCatStrip (nv_fl name).1 (nv_fl name).2)).map
            normF)) :
    x ∈ name_variants name := by
  unfold name_variants
  rw [if_neg (by simpa using hbase)]
  rw [mem_pySortedSet, List.mem_filter]
  exact ⟨hmem, by simpa using hx⟩

set_option maxHeartbeats 2000000 in
/-- C8 counterexample: for a name containing a linking particle the base
normalized form is NOT among the variants — the source adds
`" ".join(ts_nc)` (the particle-pruned form), not `base`.
`name_variants("van dijk")` is `["d dijk", "dijk", "dijk dijk"]` and does
not contain the base form `"van dijk"`. -/
theorem claim_C8_counterexample :
    normF "van dijk" ≠ ""
    ∧ normF "van dijk" ∉ name_variants "van dijk"
    ∧ name_variants "van dijk" = ["d dijk", "dijk", "dijk dijk"] :=
  ⟨by decide, by decide, by decide⟩

/-- C8 (amended): for every raw name with a non-empty normalized form,
`name_variants(name)` contains every non-empty constructed form: the
particle-pruned join `" ".join(ts_nc)` (the base normalized form exactly
when no token is a linking particle, i.e. when `ts_nc` is empty the base
itself), the first+last, first-initial+last, last-only and
last+first-reversed combinations, each hyphen-split piece (and the joined
hyphen form), and the nickname-expanded given-name normalization; empty
forms are filtered out (`sorted(v for v in variants if v)`). -/
theorem claim_C8_variant_set (name : String) (hbase : normF name ≠ "") :
    (nv_joined name ∈ name_variants name)
    ∧ (strCatStrip (nv_fl name).1 (nv_fl name).2 ≠ "" →
        strCatStrip (nv_fl name).1 (nv_fl name).2 ∈ name_variants name)
    ∧ ((if (nv_fl name).1 ≠ "" then
          strCatStrip (⟨(nv_fl name).1.data.take 1⟩) (nv_fl name).2
        else (nv_fl name).2) ≠ "" →
        (if (nv_fl name).1 ≠ "" then
          strCatStrip (⟨(nv_fl name).1.data.take 1⟩) (nv_fl name).2
        else (nv_fl name).2) ∈ name_variants name)
    ∧ ((nv_fl name).2 ≠ "" → (nv_fl name).2 ∈ name_variants name)
    ∧ (strCatStrip (nv_fl name).2 (nv_fl name).1 ≠ "" →
        strCatStrip (nv_fl name).2 (nv_fl name).1 ∈ name_variants name)
    ∧ (∀ p ∈ hyphen_splits (nv_joined name), p ≠ "" →
        p ∈ name_variants name)
    ∧ (∀ a ∈ expand_given (strCatStrip (nv_fl name).1 (nv_fl name).2),
        normF a ≠ "" → normF a ∈ name_variants name) := by
  have hflcase : ((nv_fl name).1 ≠ "" ∨ (nv_fl name).2 ≠ "")
      ∨ ((nv_fl name).1 = "" ∧ (nv_fl name).2 = "") := by
    rcases em ((nv_fl name).1 ≠ "" ∨ (nv_fl name).2 ≠ "") with h | h
    · exact Or.inl h
    · push_neg at h
      exact Or.inr h
  refine ⟨?_, ?_, ?_, ?_, ?_, ?_, ?_⟩
  · exact mem_name_variants_of hbase (nv_joined_ne_empty hbase)
      (List.mem_cons_self _ _)
  · intro hx
    rcases hflcase with hc | ⟨h1, h2⟩
    · refine mem_name_variants_of hbase hx ?_
      apply List.mem_cons_of_mem
      apply List.mem_append_left
      apply List.mem_append_left
      rw [if_pos hc]
      exact List.mem_cons_self _ _
    · rw [h1, h2] at hx
      exact absurd (by decide) hx
  · intro hx
    rcases hflcase with hc | ⟨h1, h2⟩
    · refine mem_name_variants_of hbase hx ?_
      apply List.mem_cons_of_mem
      apply List.mem_append_left
      apply List.mem_append_left
      rw [if_pos hc]
      exact List.mem_cons_of_mem _ (List.mem_cons_self _ _)
    · rw [h1, h2] at hx
      simp at hx
  · intro hx
    rcases hflcase with hc | ⟨h1, h2⟩
    · refine mem_name_variants_of hbase hx ?_
      apply List.mem_cons_of_mem
      apply List.mem_append_left
      apply List.mem_append_left
      rw [if_pos hc]
      exact List.mem_cons_of_mem _ (List.mem_cons_of_mem _
        (List.mem_cons_self _ _))
    · exact absurd h2 hx
  · intro hx
    rcases hflcase with hc | ⟨h1, h2⟩
    · refine mem_name_variants_of hbase hx ?_
      apply List.mem_cons_of_mem
      apply List.mem_append_left
      apply List.mem_append_left
      rw [if_pos hc]
      exact List.mem_cons_of_mem _ (List.mem_cons_of_mem _
        (List.mem_cons_of_mem _ (List.mem_cons_self _ _)))
    · rw [h1, h2] at hx
      exact absurd (by decide) hx
  · intro p hp hx
    refine mem_name_variants_of hbase hx ?_
    apply List.mem_cons_of_mem
    apply List.mem_append_left
    exact List.mem_append_right _ hp
  · intro a ha hx
    refine mem_name_variants_of hbase hx ?_
    apply List.mem_cons_of_mem
    apply List.mem_append_right
    exact List.mem_map_of_mem normF ha

/-- C8 witness: the amended theorem applied to `"jamie vardy"` (which also
exercises the nickname expansion `jamie → james`). -/
theorem claim_C8_witness :
    (normF "jamie vardy" ≠ "")
    ∧ nv_joined "jamie vardy" ∈ name_variants "jamie vardy"
    ∧ ((nv_fl "jamie vardy").2 ≠ "" →
        (nv_fl "jamie vardy").2 ∈ name_variants "jamie vardy")
    ∧ (∀ a ∈ expand_given
        (strCatStrip (nv_fl "jamie vardy").1 (nv_fl "jamie vardy").2),
        normF a ≠ "" → normF a ∈ name_variants "jamie vardy") :=
  ⟨by decide,
   (claim_C8_variant_set "jamie vardy" (by decide)).1,
   (claim_C8_variant_set "jamie vardy" (by decide)).2.2.2.1,
   (claim_C8_variant_set "jamie vardy" (by decide)).2.2.2.2.2.2⟩
